import Mathlib

/-!
Verification of the CLIA plan-execution engine.

This file shallowly embeds the core of the repository:
  * the tool registry and dispatch validation (`src/clia/agents/tool_router.py`),
  * the LLMCompiler plan parser, DAG validator and round-based parallel
    scheduler (`src/clia/agents/llm_compiler_agent.py`),
  * the Tree-of-Thoughts beam-search scheduler (`src/clia/agents/tot_agent.py`),
and proves the specification claims about them.

Python dictionaries are modelled as insertion-ordered association lists
(`dictInsert` mirrors `d[k] = v`: an existing key keeps its position and gets
the new value, a fresh key is appended).  Python runtime values appearing in
tool arguments and parsed JSON are modelled by `PyVal`.  Side-effecting tool
handlers and the external LLM are external collaborators; they enter the
model as explicit oracle parameters (`HandlerEnv`, generation/evaluation
oracles), so every function here is executable.
-/

namespace CLIA

/-- Model of a Python runtime value as it occurs in tool arguments and parsed
JSON: `none`/`bool`/`int`/`float`/`str`/`list`/`dict`.  Floats carry either an
exact rational (as produced by the JSON grammar) or one of the special values
`Infinity`/`-Infinity`/`NaN` that Python's `json.loads` accepts. -/
inductive PyVal where
  | none : PyVal
  | bool (b : Bool) : PyVal
  | int (n : Int) : PyVal
  | float (q : Rat) : PyVal
  | floatInf : PyVal
  | floatNegInf : PyVal
  | floatNan : PyVal
  | str (s : String) : PyVal
  | list (xs : List PyVal) : PyVal
  | dict (kvs : List (String × PyVal)) : PyVal

/-- Python `value is None`. -/
def PyVal.isNone : PyVal → Bool
  | .none => true
  | _ => false

/-- Python type designators that occur in the registry's `arg_types` maps:
`str`, `int`, `float`, `bool`, `type(None)`. -/
inductive PyType where
  | str | int | float | bool | noneType
deriving DecidableEq, Repr

/-- Python's `isinstance(value, ty)` for the values and type designators of
this code base.  Note `isinstance(True, int)` is `True` in Python (`bool` is a
subclass of `int`), while `isinstance(1, float)` is `False`. -/
def pyIsInstance : PyVal → PyType → Bool
  | .str _, .str => true
  | .int _, .int => true
  | .bool _, .int => true
  | .bool _, .bool => true
  | .float _, .float => true
  | .floatInf, .float => true
  | .floatNegInf, .float => true
  | .floatNan, .float => true
  | .none, .noneType => true
  | _, _ => false

/-- First-match lookup in an association list (Python `d[k]` / `d.get(k)`). -/
def alookup {α : Type} (m : List (String × α)) (k : String) : Option α :=
  match m with
  | [] => Option.none
  | (k', v) :: rest => if k' = k then Option.some v else alookup rest k

/-- Python `d[k] = v` on an insertion-ordered dict: an existing key keeps its
position and receives the new value, a fresh key is appended at the end. -/
def dictInsert {α : Type} (m : List (String × α)) (k : String) (v : α) :
    List (String × α) :=
  match m with
  | [] => [(k, v)]
  | (k', v') :: rest =>
      if k' = k then (k', v) :: rest else (k', v') :: dictInsert rest k v

/-- Python `{**a, **b}`: start from `a` and assign every binding of `b` in
order. -/
def dictMerge {α : Type} (a b : List (String × α)) : List (String × α) :=
  b.foldl (fun m kv => dictInsert m kv.1 kv.2) a

/-- Keys of an association list, in order. -/
def dictKeys {α : Type} (m : List (String × α)) : List String :=
  m.map (fun kv => kv.1)

/-- Membership of a key (Python `k in d`). -/
def hasKey {α : Type} (m : List (String × α)) (k : String) : Bool :=
  m.any (fun kv => kv.1 = k)

/-- Substring test, used to state what an error or log message mentions. -/
def strContains (hay needle : String) : Bool :=
  let n := needle.data
  let rec go : List Char → Bool
    | [] => List.isPrefixOf n []
    | c :: rest => List.isPrefixOf n (c :: rest) || go rest
  go hay.data

/-- Truthiness of an optional string, modelling Python `if not s:` on a value
obtained from `step.get(key)`: missing (`None`) and the empty string are
falsy. -/
def optStrTruthy : Option String → Bool
  | Option.none => false
  | Option.some s => s ≠ ""

/-! ## Tool registry (`src/clia/agents/tool_router.py`)

A `Tool` carries the declarative part of the Python `Tool` dataclass: the
documented argument names (`args`), required set, defaults and declared
argument types.  The side-effecting `handler` is an external collaborator and
is supplied to dispatch as a `HandlerEnv` oracle. -/

/-- Outcome of invoking a tool handler: a returned string, or a raised
exception carrying its message. -/
inductive HandlerOutcome where
  | ok (s : String) : HandlerOutcome
  | raises (msg : String) : HandlerOutcome
deriving DecidableEq, Repr

/-- Oracle for the external, side-effecting tool handlers:
`henv name mergedArgs` is the outcome of `tool.handler(**merged)`. -/
def HandlerEnv : Type := String → List (String × PyVal) → HandlerOutcome

/-- Declarative part of the Python `Tool` dataclass. -/
structure Tool where
  name : String
  args : List (String × String)
  required : List String
  defaults : List (String × PyVal)
  argTypes : List (String × List PyType)

/-- The concrete `TOOLS` registry of `tool_router.py` (declarative part). -/
def TOOLS : List (String × Tool) :=
  [ ("read_file",
     { name := "read_file"
       args := [("path_str", "path of the file to read"),
                ("max_chars", "maximum number of characters to read (default: 4000)")]
       required := ["path_str"]
       defaults := [("max_chars", .int 4000)]
       argTypes := [("path_str", [.str]), ("max_chars", [.int])] }),
    ("write_file",
     { name := "write_file"
       args := [("path_str", "path of the file to write"),
                ("content", "content to write to the file"),
                ("backup", "whether to backup existing file (default: True)")]
       required := ["path_str", "content"]
       defaults := [("backup", .bool true)]
       argTypes := [("path_str", [.str]), ("content", [.str]), ("backup", [.bool])] }),
    ("shell",
     { name := "shell"
       args := [("command", "shell command to execute"),
                ("timeout", "timeout in seconds (default: 30.0)"),
                ("cwd", "working directory for command execution")]
       required := ["command"]
       defaults := [("timeout", .float 30), ("cwd", .none)]
       argTypes := [("command", [.str]), ("timeout", [.int, .float]),
                    ("cwd", [.str, .noneType])] }),
    ("echo",
     { name := "echo"
       args := [("text", "the text to echo")]
       required := ["text"]
       defaults := []
       argTypes := [("text", [.str])] }),
    ("http_get",
     { name := "http_get"
       args := [("url", "the URL to send the GET request to"),
                ("timeout", "the timeout for the request in seconds (default: 10.0)")]
       required := ["url"]
       defaults := [("timeout", .float 10)]
       argTypes := [("url", [.str]), ("timeout", [.int, .float])] }),
    ("fix_code",
     { name := "fix_code"
       args := [("error_input", "error message, stack trace, or test output"),
                ("code_context", "code string or file path to fix"),
                ("max_iterations", "maximum fix iterations (default: 3)"),
                ("auto_run_tests", "whether to automatically run tests (default: False)"),
                ("test_command", "test command to run (e.g., 'pytest tests/')"),
                ("iterate_until_passing", "keep iterating until tests pass (default: False)"),
                ("write_back", "whether to write fixed code back to file (default: False)"),
                ("file_path", "target file path for write-back (uses code_context path if not specified)"),
                ("backup_original", "whether to backup original file (default: True)"),
                ("api_key", "OpenAI API key"),
                ("base_url", "OpenAI API base URL"),
                ("model", "model to use for fixing"),
                ("temperature", "temperature for LLM (default: 0.1)"),
                ("verbose", "verbose output (default: False)")]
       required := []
       defaults := [("max_iterations", .int 3), ("auto_run_tests", .bool false),
                    ("iterate_until_passing", .bool false), ("write_back", .bool false),
                    ("backup_original", .bool true), ("temperature", .float (1/10)),
                    ("verbose", .bool false)]
       argTypes := [("error_input", [.str]), ("code_context", [.str]),
                    ("max_iterations", [.int]), ("auto_run_tests", [.bool]),
                    ("test_command", [.str]), ("iterate_until_passing", [.bool]),
                    ("write_back", [.bool]), ("file_path", [.str]),
                    ("backup_original", [.bool]), ("api_key", [.str]),
                    ("base_url", [.str]), ("model", [.str]),
                    ("temperature", [.int, .float]), ("verbose", [.bool])] }) ]

/-- Lexicographically sorted, duplicate-free version of a list of keys,
modelling Python `sorted(list(someSet))`. -/
def sortedKeys (l : List String) : List String :=
  (l.dedup).mergeSort (fun a b => a ≤ b)

/-- The `_validate_args` check of `tool_router.py`: returns the merged
argument dict `{**defaults, **kwargs}` together with the offending key set
`unknown ∪ missing` (unknown = supplied but not in the tool's `args` schema;
missing = required but absent from the merged dict). -/
def validateArgs (tool : Tool) (kwargs : List (String × PyVal)) :
    List (String × PyVal) × List String :=
  let unknown := (dictKeys kwargs).filter (fun k => ¬ hasKey tool.args k)
  let merged := dictMerge tool.defaults kwargs
  let missing := tool.required.filter (fun k => ¬ hasKey merged k)
  (merged, unknown ++ missing)

/-- The `_validate_types` check of `tool_router.py`: for each declared
argument type, if the key is present and its value is not `None`, check
`isinstance` against the declared type (a tuple type accepts any member).
Returns the offending keys.  Note that a value of `None` is skipped — it is
accepted for every declared type, nullable or not. -/
def validateTypes (tool : Tool) (kwargs : List (String × PyVal)) : List String :=
  tool.argTypes.foldl
    (fun invalid kv =>
      match alookup kwargs kv.1 with
      | Option.none => invalid
      | Option.some v =>
          if v.isNone then invalid
          else if kv.2.any (fun t => pyIsInstance v t) then invalid
          else invalid ++ [kv.1])
    []

/-- Python `repr` of a list of strings with single quotes, as interpolated by
f-strings into the dispatch error messages. -/
def pyStrListRepr (l : List String) : String :=
  let quoted := l.map (fun s => "\x27" ++ s ++ "\x27")
  "[" ++ String.intercalate ", " quoted ++ "]"

/-- Structured failure of `run_tool`: the three validation `ValueError`s plus
a handler-raised exception (which `run_tool` itself does not catch). -/
inductive DispatchErr where
  | unknownTool (name : String) : DispatchErr
  | invalidArgs (name : String) (keys : List String) : DispatchErr
  | invalidTypes (name : String) (keys : List String) : DispatchErr
  | handlerRaised (msg : String) : DispatchErr
deriving DecidableEq, Repr

/-- Python `str(e)` of the exception modelled by a `DispatchErr`, matching the
f-strings of `tool_router.py`. -/
def DispatchErr.message : DispatchErr → String
  | .unknownTool n => "Unknown tool: " ++ n
  | .invalidArgs n ks => "Invalid or missing arguments for tool " ++ n ++ ": " ++ pyStrListRepr ks
  | .invalidTypes n ks => "Invalid argument types for tool " ++ n ++ ": " ++ pyStrListRepr ks
  | .handlerRaised m => m

/-- The `run_tool` dispatch function of `tool_router.py`.  Unknown tool,
invalid/missing arguments and invalid argument types are raised (modelled as
`Except.error`); otherwise the handler is invoked, and an exception it raises
propagates out of `run_tool` uncaught. -/
def runTool (henv : HandlerEnv) (toolName : String)
    (kwargs : List (String × PyVal)) : Except DispatchErr String :=
  match alookup TOOLS toolName with
  | Option.none => .error (.unknownTool toolName)
  | Option.some tool =>
      let (merged, badNames) := validateArgs tool kwargs
      if badNames ≠ [] then .error (.invalidArgs toolName (sortedKeys badNames))
      else
        let badTypes := validateTypes tool merged
        if badTypes ≠ [] then .error (.invalidTypes toolName (sortedKeys badTypes))
        else
          match henv toolName merged with
          | .ok s => .ok s
          | .raises m => .error (.handlerRaised m)

/-! ## Plan model and DAG scheduler (`src/clia/agents/llm_compiler_agent.py`)

A plan step is a JSON object with optional keys `id`, `action`, `tool`,
`args`, `answer`, `dependencies` (the wire format of spec §6); `Step` models
such an object with one optional field per key.  `step.get(k, default)`
becomes `Option.getD`. -/

/-- A step of an LLMCompiler plan. -/
structure Step where
  id : Option String := Option.none
  action : Option String := Option.none
  tool : Option String := Option.none
  args : List (String × PyVal) := []
  answer : Option String := Option.none
  dependencies : Option (List String) := Option.none

/-- Python `step.get("dependencies", [])`. -/
def depsOf (s : Step) : List String := s.dependencies.getD []

/-- The set comprehension `{step.get("id") for step in plan if "id" in step}`
(as an ordered list, possibly with duplicates; only membership is used). -/
def planIds (plan : List Step) : List String := plan.filterMap (fun s => s.id)

/-- The dict comprehension
`{step.get("id"): step for step in plan if "id" in step}`: a later step with
the same id overwrites the value but keeps the first insertion position. -/
def stepMapOf (plan : List Step) : List (String × Step) :=
  plan.foldl (fun m s =>
    match s.id with
    | Option.some i => dictInsert m i s
    | Option.none => m) []

/-- Error message of `_execute_step` for a step without a tool. -/
def noToolMsg (sid : String) : String :=
  "Error: No tool specified in step " ++ sid

/-- Error message of `_execute_step` for an unregistered tool. -/
def unknownToolStepMsg (t : String) : String :=
  "Error: Unknown tool \x27" ++ t ++ "\x27. Available tools: " ++
    pyStrListRepr (dictKeys TOOLS)

/-- Error message of `_execute_step` when `run_tool` raises. -/
def executeErrMsg (t sid emsg : String) : String :=
  "Error executing " ++ t ++ " in step " ++ sid ++ ": " ++ emsg

set_option linter.unusedVariables false in
/-- The `_execute_step` function: a `final` step resolves to its literal
answer; a tool step dispatches through `run_tool` with every exception caught
and converted to an error-message result.  The `results` parameter is
received (the scheduler passes the shared results dict) but never read. -/
def executeStep (henv : HandlerEnv) (step : Step)
    (results : List (String × String)) : String × String :=
  let sid := step.id.getD "unknown"
  if step.action = Option.some "final" then (sid, (step.answer).getD "")
  else if ¬ optStrTruthy step.tool then (sid, noToolMsg sid)
  else
    let t := step.tool.getD ""
    if ¬ hasKey TOOLS t then (sid, unknownToolStepMsg t)
    else
      match runTool henv t step.args with
      | .ok r => (sid, r)
      | .error e => (sid, executeErrMsg t sid e.message)

/-- Outcome of `_execute_plan_parallel`: the results dict, the completed set
(in completion order) and, as the observable schedule, the list of executed
rounds (each round the list of step ids dispatched in it, in `step_map`
order). -/
structure ExecOut where
  results : List (String × String)
  completed : List String
  rounds : List (List String)

/-- Ready computation of `_execute_plan_parallel`: the steps of `step_map`
(in order) that are not completed and whose full dependency set is contained
in the completed set. -/
def readyOf (sm : List (String × Step)) (completed : List String) :
    List (String × Step) :=
  sm.filter (fun p =>
    decide (p.1 ∉ completed) && decide (∀ d ∈ depsOf p.2, d ∈ completed))

/-- Recording one finished step of a round: `results[step_id] = result;`
`completed.add(step_id)`. -/
def roundFold (henv : HandlerEnv)
    (acc : List (String × String) × List String) (p : String × Step) :
    List (String × String) × List String :=
  let r := executeStep henv p.2 acc.1
  (dictInsert acc.1 r.1 r.2, if r.1 ∈ acc.2 then acc.2 else acc.2 ++ [r.1])

/-- The round loop of `_execute_plan_parallel`.  Fuel counts the remaining
rounds permitted by the `max_rounds = 2 * len(plan)` safety bound.  A round
executes all ready steps as a batch and the next round starts only after the
whole batch has been recorded (the layer-by-layer barrier). -/
def execLoop (henv : HandlerEnv) (sm : List (String × Step)) :
    Nat → List (String × String) → List String → List (List String) → ExecOut
  | 0, res, comp, tr => ⟨res, comp, tr.reverse⟩
  | Nat.succ fuel, res, comp, tr =>
    if comp.length < sm.length then
      match readyOf sm comp with
      | [] => ⟨res, comp, tr.reverse⟩
      | p :: ps =>
          let st := (p :: ps).foldl (roundFold henv) (res, comp)
          execLoop henv sm fuel st.1 st.2 ((p :: ps).map Prod.fst :: tr)
    else ⟨res, comp, tr.reverse⟩

/-- Error string recorded for a step the loop never executed. -/
def notExecutedMsg (i : String) : String :=
  "Error: Step " ++ i ++ " was not executed (dependencies not satisfied)"

/-- The post-loop fill of `_execute_plan_parallel`: a step id that is not
completed and has no result yet receives the descriptive error string. -/
def fillStep (comp : List String) (r : List (String × String))
    (p : String × Step) : List (String × String) :=
  if p.1 ∈ comp then r
  else if (alookup r p.1).isSome then r
  else dictInsert r p.1 (notExecutedMsg p.1)

/-- The `_execute_plan_parallel` function: run the round loop with fuel
`2 * len(plan)`, then give every still-uncompleted step id a descriptive
error result. -/
def executePlanParallel (henv : HandlerEnv) (plan : List Step) : ExecOut :=
  let sm := stepMapOf plan
  let o := execLoop henv sm (2 * plan.length) [] [] []
  ⟨sm.foldl (fillStep o.completed) o.results, o.completed, o.rounds⟩

/-! ## Plan validation (`_validate_plan`)

The validator returns `True`/`False` and emits log messages; we model it as
`Bool × List String` where the second component collects the
`logger.warning`/`logger.error` messages, since the spec claims are about
what the failure "reports". -/

/-- Log message for a dependency id absent from the plan. -/
def missingDepMsg (dep sid : String) : String :=
  "Dependency " ++ dep ++ " not found in plan for step " ++ sid

/-- Log message emitted when the DFS finds a cycle. -/
def cycleMsg : String := "Plan contains cycles - not a valid DAG"

/-- Adjacency structure `graph : Dict[str, Set[str]]` (dependency lists keyed
by step id). -/
abbrev Graph : Type := List (String × List String)

/-- Python `graph.get(node, set())`. -/
def graphLookup (g : Graph) (k : String) : List String := (alookup g k).getD []

/-- The initial comprehension
`{step.get("id", ""): set() for step in plan if "id" in step}`. -/
def graphInit (plan : List Step) : Graph :=
  plan.foldl (fun g s =>
    match s.id with
    | Option.some i => dictInsert g i []
    | Option.none => g) []

/-- The dependency-existence loop of `_validate_plan`: steps with a falsy id
(absent or empty) are skipped; the first dependency id not in `ids` aborts
with that `(dep, step_id)` pair; otherwise `graph[step_id] = deps` is
assigned. -/
def checkDeps : List Step → List String → Graph → Except (String × String) Graph
  | [], _, g => .ok g
  | s :: rest, ids, g =>
    match s.id with
    | Option.none => checkDeps rest ids g
    | Option.some i =>
      if i = "" then checkDeps rest ids g
      else
        let ds := depsOf s
        match ds.find? (fun d => decide (d ∉ ids)) with
        | Option.some d => .error (d, i)
        | Option.none => checkDeps rest ids (dictInsert g i ds)

/-- Sequential exploration of a dependency list, threading the visited set
and short-circuiting on a detected cycle; `f` is the recursive `has_cycle`
call at the next smaller fuel. -/
def dfsDepsWith
    (f : String → List String → List String → Option (Bool × List String)) :
    List String → List String → List String → Option (Bool × List String)
  | [], v, _ => Option.some (false, v)
  | d :: ds, v, r =>
    match f d v r with
    | Option.some (true, v') => Option.some (true, v')
    | Option.some (false, v') => dfsDepsWith f ds v' r
    | Option.none => Option.none

/-- The recursive `has_cycle(node)` of `_validate_plan`: `v` is the mutable
`visited` set, `r` the current recursion stack (the path of active calls; the
Python `rec_stack` set holds exactly these nodes).  Fuel bounds the recursion
depth; `Option.none` means fuel ran out, which is proved unreachable for the
fuel chosen by `validatePlan`. -/
def dfs (g : Graph) : Nat → String → List String → List String → Option (Bool × List String)
  | 0, _, _, _ => Option.none
  | Nat.succ fuel, node, v, r =>
    if node ∈ r then Option.some (true, v)
    else if node ∈ v then Option.some (false, v)
    else dfsDepsWith (dfs g fuel) (graphLookup g node) (v ++ [node]) (node :: r)

/-- The outer loop `for node_id in graph: if node_id not in visited:
if has_cycle(node_id): return False`, returning whether a cycle was found. -/
def dfsAll (g : Graph) (fuel : Nat) : List String → List String → Option Bool
  | [], _ => Option.some false
  | k :: ks, v =>
    if k ∈ v then dfsAll g fuel ks v
    else
      match dfs g fuel k v [] with
      | Option.some (true, _) => Option.some true
      | Option.some (false, v') => dfsAll g fuel ks v'
      | Option.none => Option.none

/-- All node names that can ever enter the visited set: the graph's keys and
every dependency occurring in it. -/
def graphUniverse (g : Graph) : List String :=
  dictKeys g ++ (g.map (fun kv => kv.2)).flatten

/-- The `_validate_plan` function, returning the boolean result together with
the list of emitted log messages. -/
def validatePlan (plan : List Step) : Bool × List String :=
  let ids := planIds plan
  match checkDeps plan ids (graphInit plan) with
  | .error di => (false, [missingDepMsg di.1 di.2])
  | .ok g =>
    match dfsAll g ((graphUniverse g).length + 1) (dictKeys g) [] with
    | Option.some true => (false, [cycleMsg])
    | Option.some false => (true, [])
    | Option.none => (false, [])

/-- The graph `checkDeps` produces when no dependency is missing, as a total
function: every truthy-id step assigns its dependency list to its id. -/
def buildGraph (plan : List Step) : Graph :=
  plan.foldl (fun g s =>
    match s.id with
    | Option.some i => if i = "" then g else dictInsert g i (depsOf s)
    | Option.none => g) (graphInit plan)

/-! ## JSON parsing (`json.loads`) and plan extraction (`_extract_plan`)

The parser implements the JSON grammar accepted by Python's `json.loads`
(including the `NaN`/`Infinity`/`-Infinity` extensions), over the character
list of the input with explicit fuel.  Two divergences from CPython, both
irrelevant to the claims: escaped lone surrogates in string literals are
rejected rather than producing unpaired surrogates (Lean `Char` cannot hold
them), and numeric floats are represented exactly as rationals rather than
rounded to binary floating point. -/

/-- JSON whitespace (the only characters `json.loads` skips between
tokens). -/
def isJsonWs (c : Char) : Bool :=
  c = ' ' || c = '\t' || c = '\n' || c = '\r'

/-- Prefix test on character lists. -/
def chStarts : List Char → List Char → Bool
  | [], _ => true
  | _ :: _, [] => false
  | p :: ps, c :: cs => p = c && chStarts ps cs

/-- Value of a hexadecimal digit. -/
def hexVal (c : Char) : Option Nat :=
  if '0' ≤ c ∧ c ≤ '9' then Option.some (c.toNat - 48)
  else if 'a' ≤ c ∧ c ≤ 'f' then Option.some (c.toNat - 87)
  else if 'A' ≤ c ∧ c ≤ 'F' then Option.some (c.toNat - 70)
  else Option.none

/-- Decimal value of a digit string. -/
def digitsToNat (ds : List Char) : Nat :=
  ds.foldl (fun n c => n * 10 + (c.toNat - 48)) 0

/-- JSON string body parser (after the opening quote): handles the escape
sequences `\" \\ \/ \b \f \n \r \t \uXXXX` including surrogate pairs, and
rejects unescaped control characters. -/
def parseStrBody : Nat → List Char → Option (List Char × List Char)
  | 0, _ => Option.none
  | Nat.succ fuel, cs =>
    match cs with
    | [] => Option.none
    | c :: r =>
      if c = '"' then Option.some ([], r)
      else if c = '\\' then
        match r with
        | [] => Option.none
        | e :: r2 =>
          if e = 'u' then
            match r2 with
            | h1 :: h2 :: h3 :: h4 :: r3 =>
              match hexVal h1, hexVal h2, hexVal h3, hexVal h4 with
              | Option.some a, Option.some b, Option.some c1, Option.some d =>
                let code := ((a * 16 + b) * 16 + c1) * 16 + d
                if 0xD800 ≤ code ∧ code ≤ 0xDBFF then
                  match r3 with
                  | '\\' :: 'u' :: g1 :: g2 :: g3 :: g4 :: r4 =>
                    match hexVal g1, hexVal g2, hexVal g3, hexVal g4 with
                    | Option.some a2, Option.some b2, Option.some c2, Option.some d2 =>
                      let lo := ((a2 * 16 + b2) * 16 + c2) * 16 + d2
                      if 0xDC00 ≤ lo ∧ lo ≤ 0xDFFF then
                        let cp := 0x10000 + (code - 0xD800) * 0x400 + (lo - 0xDC00)
                        (parseStrBody fuel r4).map
                          (fun p => (Char.ofNat cp :: p.1, p.2))
                      else Option.none
                    | _, _, _, _ => Option.none
                  | _ => Option.none
                else if 0xDC00 ≤ code ∧ code ≤ 0xDFFF then Option.none
                else
                  (parseStrBody fuel r3).map (fun p => (Char.ofNat code :: p.1, p.2))
              | _, _, _, _ => Option.none
            | _ => Option.none
          else
            let esc : Option Char :=
              if e = '"' then Option.some '"'
              else if e = '\\' then Option.some '\\'
              else if e = '/' then Option.some '/'
              else if e = 'b' then Option.some (Char.ofNat 8)
              else if e = 'f' then Option.some (Char.ofNat 12)
              else if e = 'n' then Option.some '\n'
              else if e = 'r' then Option.some '\r'
              else if e = 't' then Option.some '\t'
              else Option.none
            match esc with
            | Option.some ec => (parseStrBody fuel r2).map (fun p => (ec :: p.1, p.2))
            | Option.none => Option.none
      else if c.toNat < 32 then Option.none
      else (parseStrBody fuel r).map (fun p => (c :: p.1, p.2))

/-- JSON number parser (after an optional leading minus sign, which the
caller has already consumed and passes as `neg`).  Follows the strict JSON
grammar: integer part `0` or nonzero-led digits, optional fraction, optional
exponent; produces an `int` when there is neither fraction nor exponent. -/
def parseNumAfterSign (neg : Bool) (cs : List Char) : Option (PyVal × List Char) :=
  let ipart : Option (List Char × List Char) :=
    match cs with
    | '0' :: r => Option.some (['0'], r)
    | c :: r =>
      if '1' ≤ c ∧ c ≤ '9' then
        let t := (c :: r).span (fun d => d.isDigit)
        Option.some t
      else Option.none
    | [] => Option.none
  match ipart with
  | Option.none => Option.none
  | Option.some (ids, r1) =>
    let fpart : Option (List Char × List Char) :=
      match r1 with
      | '.' :: r2 =>
        let t := r2.span (fun d => d.isDigit)
        if t.1 = [] then Option.none else Option.some t
      | _ => Option.some ([], r1)
    match fpart with
    | Option.none => Option.none
    | Option.some (fds, r2) =>
      let epart : Option (Option Int × List Char) :=
        match r2 with
        | c :: r3 =>
          if c = 'e' ∨ c = 'E' then
            let (esign, r4) :=
              match r3 with
              | '+' :: r5 => ((1 : Int), r5)
              | '-' :: r5 => ((-1 : Int), r5)
              | _ => ((1 : Int), r3)
            let t := r4.span (fun d => d.isDigit)
            if t.1 = [] then Option.none
            else Option.some (Option.some (esign * (digitsToNat t.1 : Int)), t.2)
          else Option.some (Option.none, r2)
        | [] => Option.some (Option.none, r2)
      match epart with
      | Option.none => Option.none
      | Option.some (eo, rest) =>
        let sgn : Int := if neg then -1 else 1
        match fds, eo with
        | [], Option.none => Option.some (.int (sgn * (digitsToNat ids : Int)), rest)
        | _, _ =>
          let e := eo.getD 0
          let mant : Int := sgn * (digitsToNat (ids ++ fds) : Int)
          let q : Rat := (mant : Rat) * (10 : Rat) ^ (e - (fds.length : Int))
          Option.some (.float q, rest)

mutual

/-- JSON value parser with fuel; mutually recursive with the array- and
object-member parsers below, every call decreasing the fuel. -/
def parseVal : Nat → List Char → Option (PyVal × List Char)
  | 0, _ => Option.none
  | Nat.succ fuel, cs0 =>
    let cs := cs0.dropWhile isJsonWs
    match cs with
    | [] => Option.none
    | c :: r =>
      if c = '"' then
        (parseStrBody (r.length + 1) r).map (fun p => (.str (String.mk p.1), p.2))
      else if c = '[' then parseArrItems fuel true [] r
      else if c = '\x7b' then parseObjItems fuel true [] r
      else if chStarts ['t', 'r', 'u', 'e'] cs then Option.some (.bool true, cs.drop 4)
      else if chStarts ['f', 'a', 'l', 's', 'e'] cs then Option.some (.bool false, cs.drop 5)
      else if chStarts ['n', 'u', 'l', 'l'] cs then Option.some (.none, cs.drop 4)
      else if chStarts ['N', 'a', 'N'] cs then Option.some (.floatNan, cs.drop 3)
      else if chStarts ['I', 'n', 'f', 'i', 'n', 'i', 't', 'y'] cs then
        Option.some (.floatInf, cs.drop 8)
      else if c = '-' then
        if chStarts ['I', 'n', 'f', 'i', 'n', 'i', 't', 'y'] r then
          Option.some (.floatNegInf, r.drop 8)
        else parseNumAfterSign true r
      else parseNumAfterSign false cs

/-- Array members: `first` is true before the first element (so a closing
bracket yields the empty array and no comma is expected). -/
def parseArrItems : Nat → Bool → List PyVal → List Char → Option (PyVal × List Char)
  | 0, _, _, _ => Option.none
  | Nat.succ fuel, first, acc, cs0 =>
    let cs := cs0.dropWhile isJsonWs
    match cs with
    | [] => Option.none
    | c :: r =>
      if c = ']' ∧ first then Option.some (.list [], r)
      else
        match parseVal fuel cs with
        | Option.none => Option.none
        | Option.some (v, r1) =>
          let r2 := r1.dropWhile isJsonWs
          match r2 with
          | ']' :: r3 => Option.some (.list (acc ++ [v]), r3)
          | ',' :: r3 => parseArrItems fuel false (acc ++ [v]) r3
          | _ => Option.none

/-- Object members (after the opening brace). -/
def parseObjItems : Nat → Bool → List (String × PyVal) → List Char →
    Option (PyVal × List Char)
  | 0, _, _, _ => Option.none
  | Nat.succ fuel, first, acc, cs0 =>
    let cs := cs0.dropWhile isJsonWs
    match cs with
    | [] => Option.none
    | c :: r =>
      if c = '\x7d' ∧ first then Option.some (.dict [], r)
      else if c = '"' then
        match parseStrBody (r.length + 1) r with
        | Option.none => Option.none
        | Option.some (kcs, r1) =>
          let r2 := r1.dropWhile isJsonWs
          match r2 with
          | ':' :: r3 =>
            match parseVal fuel r3 with
            | Option.none => Option.none
            | Option.some (v, r4) =>
              let acc' := dictInsert acc (String.mk kcs) v
              let r5 := r4.dropWhile isJsonWs
              match r5 with
              | '\x7d' :: r6 => Option.some (.dict acc', r6)
              | ',' :: r6 => parseObjItems fuel false acc' r6
              | _ => Option.none
          | _ => Option.none
      else Option.none

end

/-- Fuel that is ample for any input of the given length (each character of
the input can account for at most a bounded number of recursive calls). -/
def jsonFuel (s : String) : Nat := 4 * s.length + 16

/-- Python `json.loads`: parse one JSON value and require only whitespace to
follow; any leftover input is an error. -/
def jsonParse (s : String) : Option PyVal :=
  match parseVal (jsonFuel s) s.data with
  | Option.none => Option.none
  | Option.some (v, rest) =>
      if rest.dropWhile isJsonWs = [] then Option.some v else Option.none

/-- Result of `json.loads` filtered by the scheduler's
`isinstance(plan, list)` check: the parsed value if it is a JSON array. -/
def arrOf (s : String) : Option (List PyVal) :=
  match jsonParse s with
  | Option.some (.list xs) => Option.some xs
  | _ => Option.none

/-! ### The two regex extractions

`PLAN_PATTERN` is `r"(3 backticks)json\s*(\[.*?\])\s*(3 backticks)"` with
`re.DOTALL` and `PLAN_PATTERN_SIMPLE` is `r"\[.*?\]"` with `re.DOTALL`; both
are used via `re.search` (leftmost match, lazy body).  Python's `\s` is
approximated by its ASCII whitespace characters. -/

/-- ASCII whitespace matched by the regex class `\s`. -/
def isPyWs (c : Char) : Bool :=
  c = ' ' || c = '\t' || c = '\n' || c = '\r' || c = '\x0b' || c = '\x0c'

/-- Three backticks. -/
def fenceLit : List Char := [Char.ofNat 96, Char.ofNat 96, Char.ofNat 96]

/-- The literal opening of a fenced JSON block. -/
def fenceJsonLit : List Char := fenceLit ++ ['j', 's', 'o', 'n']

/-- Lazy search for the closing bracket of the fenced pattern: the shortest
prefix ending in `]` that is followed by optional whitespace and three
backticks; on failure at a candidate `]` the search continues (regex
backtracking on the lazy `.*?`). -/
def lazyCloseFence : List Char → Option (List Char)
  | [] => Option.none
  | c :: r =>
    if c = ']' ∧ chStarts fenceLit (r.dropWhile isPyWs) then Option.some [c]
    else
      match lazyCloseFence r with
      | Option.some b => Option.some (c :: b)
      | Option.none => Option.none

/-- Attempt to match `PLAN_PATTERN` anchored at the start of `cs`, returning
the bracketed capture group. -/
def fencedAt (cs : List Char) : Option (List Char) :=
  if chStarts fenceJsonLit cs then
    match (cs.drop 7).dropWhile isPyWs with
    | c :: r => if c = '[' then (lazyCloseFence r).map (fun b => c :: b) else Option.none
    | [] => Option.none
  else Option.none

/-- Leftmost-match scan for `PLAN_PATTERN` (`re.search` semantics). -/
def fencedScan : List Char → Option (List Char)
  | [] => Option.none
  | c :: r =>
    match fencedAt (c :: r) with
    | Option.some m => Option.some m
    | Option.none => fencedScan r

/-- The capture group of `PLAN_PATTERN.search(s)`. -/
def fencedArrayMatch (s : String) : Option String :=
  (fencedScan s.data).map (fun m => String.mk m)

/-- Suffix of a character list beginning at its first `[`. -/
def afterFirstOpen : List Char → Option (List Char)
  | [] => Option.none
  | c :: r => if c = '[' then Option.some (c :: r) else afterFirstOpen r

/-- Characters up to and including the first `]`. -/
def takeUntilClose : List Char → Option (List Char)
  | [] => Option.none
  | c :: r =>
    if c = ']' then Option.some [c]
    else (takeUntilClose r).map (fun m => c :: m)

/-- The match of `PLAN_PATTERN_SIMPLE.search(s)`: from the first `[` to the
first `]` after it (leftmost start, lazy body; if the first `[` has no
following `]` then no later `[` has one either, so there is no match). -/
def simpleArrayMatch (s : String) : Option String :=
  match afterFirstOpen s.data with
  | Option.none => Option.none
  | Option.some [] => Option.none
  | Option.some (c :: r) => (takeUntilClose r).map (fun m => String.mk (c :: m))

/-- The fallback plan element
`{"id": "final", "action": "final", "answer": response, "dependencies": []}`
returned when no JSON array can be extracted. -/
def fallbackStepDict (response : String) : PyVal :=
  .dict [("id", .str "final"), ("action", .str "final"),
         ("answer", .str response), ("dependencies", .list [])]

/-- The `_extract_plan` function: try the fenced-block regex, then the simple
bracket regex, then the whole response, each followed by `json.loads` and an
`isinstance(.., list)` check; if everything fails return the single-element
fallback plan. -/
def extractPlan (response : String) : List PyVal :=
  match (fencedArrayMatch response).bind arrOf with
  | Option.some xs => xs
  | Option.none =>
    match (simpleArrayMatch response).bind arrOf with
    | Option.some xs => xs
    | Option.none =>
      match arrOf response with
      | Option.some xs => xs
      | Option.none => [fallbackStepDict response]

/-- Dependency relation of a plan: `planDepRel plan a b` holds when some step
of the plan has id `a` and lists `b` among its dependencies. -/
def planDepRel (plan : List Step) (a b : String) : Prop :=
  ∃ s ∈ plan, s.id = Option.some a ∧ b ∈ depsOf s

/-- Edge relation of an adjacency structure. -/
def graphRel (g : Graph) (a b : String) : Prop := b ∈ graphLookup g a

/-- Acyclicity of a relation: no nonempty path from a node to itself. -/
def Acyclic {σ : Type} (r : σ → σ → Prop) : Prop :=
  ∀ a, ¬ Relation.TransGen r a a

/-! ## Tree-of-Thoughts scheduler (`src/clia/agents/tot_agent.py`)

Scores are Python floats used only through comparisons; they are modelled as
rationals.  The external collaborators — the generation call (response text,
regex match and `json.loads` combined), the evaluation call, `uuid4` and the
tool handlers — enter as oracles, so the search itself is executable. -/

/-- Python truthiness (`bool(v)`), used for `if not tool_name:`,
`if result:` and `if not thought.action:`. -/
def pyTruthy : PyVal → Bool
  | .none => false
  | .bool b => b
  | .int n => n ≠ 0
  | .float q => q ≠ 0
  | .floatInf => true
  | .floatNegInf => true
  | .floatNan => true
  | .str s => s ≠ ""
  | .list [] => false
  | .list (_ :: _) => true
  | .dict [] => false
  | .dict (_ :: _) => true

/-- Whether a value is a Python dict (`isinstance(v, dict)`). -/
def isDictVal : PyVal → Bool
  | .dict _ => true
  | _ => false

/-- Lookup `v.get(k)` on a dict value (`Option.none` on other shapes, which
do not occur for values produced by the generation path). -/
def pyDictGet : PyVal → String → Option PyVal
  | .dict kvs, k => alookup kvs k
  | _, _ => Option.none

/-- Python `str(v)` for the scalar values that can reach an f-string in this
code; container rendering (which no claim depends on) is approximated. -/
def pyStr : PyVal → String
  | .str s => s
  | .int n => toString n
  | .bool true => "True"
  | .bool false => "False"
  | .none => "None"
  | .float q => toString q
  | .floatInf => "inf"
  | .floatNegInf => "-inf"
  | .floatNan => "nan"
  | .list _ => "[...]"
  | .dict _ => "..."

/-- The score `0.5` of a placeholder fallback thought, as a literal rational
(`1 / 2` written as an explicit fraction so that it evaluates in the
kernel). -/
def halfScore : Rat := ⟨1, 2, by omega, Nat.coprime_one_left 2⟩

/-- The `Thought` dataclass of `tot_agent.py`. -/
structure Thought where
  id : String
  content : String
  depth : Nat
  parentId : Option String
  score : Rat
  action : Option PyVal := Option.none
  result : Option String := Option.none

/-- One element of the JSON array returned by a successful generation call:
`item.get("thought", "")` and `item.get("action")`. -/
structure GenItem where
  thought : String
  action : Option PyVal := Option.none

/-- Outcome of one generation call as observed by `_generate_thoughts`:
either the parsed item list, or an exception anywhere in the call/parse
(which triggers the placeholder fallback), or a response in which the regex
found no JSON array (which yields the empty list). -/
inductive GenOutcome where
  | items (l : List GenItem) : GenOutcome
  | failure : GenOutcome
  | noMatch : GenOutcome

/-- The `_generate_thoughts` function at the oracle boundary.  On `items`,
thoughts with nonempty content are built with ids
`thought_{depth}_{i}_{uuid}` (`i` the item index, `uuid` drawn from the
oracle with a running counter); on `failure`, `branchingFactor` placeholder
thoughts with ids `fallback_{depth}_{i}` and score `0.5` are built with no
uuid component; on `noMatch`, no thoughts are produced. -/
def generateThoughts (bf depth : Nat) (parentId : Option String)
    (out : GenOutcome) (uuidO : Nat → String) (ctr : Nat) :
    List Thought × Nat :=
  match out with
  | .noMatch => ([], ctr)
  | .failure =>
      (((List.range bf).map (fun i =>
        { id := "fallback_" ++ toString depth ++ "_" ++ toString i
          content := "Fallback approach " ++ toString (i + 1) ++ " for depth " ++ toString depth
          depth := depth
          parentId := parentId
          score := halfScore : Thought })), ctr)
  | .items l =>
      l.enum.foldl (fun (acc : List Thought × Nat) p =>
        if p.2.thought = "" then acc
        else
          (acc.1 ++ [{ id := "thought_" ++ toString depth ++ "_" ++ toString p.1
                          ++ "_" ++ uuidO acc.2
                       content := p.2.thought
                       depth := depth
                       parentId := parentId
                       score := 0
                       action :=
                         match p.2.action with
                         | Option.some (.dict kvs) => Option.some (.dict kvs)
                         | _ => Option.none }],
           acc.2 + 1)) ([], ctr)

/-- The `_execute_thought_action` function: `None` for a falsy action, the
invalid-format string for a falsy tool name or non-dict args, otherwise
`run_tool` with any exception converted to an error string. -/
def executeThoughtAction (henv : HandlerEnv) (t : Thought) : Option String :=
  match t.action with
  | Option.none => Option.none
  | Option.some a =>
    if ¬ pyTruthy a then Option.none
    else
      let toolv := (pyDictGet a "tool").getD .none
      let argsv := (pyDictGet a "args").getD (.dict [])
      if ¬ pyTruthy toolv ∨ ¬ isDictVal argsv then
        Option.some "Error: Invalid tool action format"
      else
        match toolv, argsv with
        | .str tn, .dict kvs =>
          match runTool henv tn kvs with
          | .ok s => Option.some s
          | .error e => Option.some ("Error executing tool " ++ tn ++ ": " ++ e.message)
        | v, _ =>
          Option.some ("Error executing tool " ++ pyStr v ++ ": Unknown tool: " ++ pyStr v)

/-- Oracles for the external collaborators of one tree-search run. -/
structure TotOracles where
  gen : List (String × String) → Nat → GenOutcome
  eval : Thought → Rat
  uuid : Nat → String
  henv : HandlerEnv

/-- Linear scan `next((t for t in all_thoughts if t.id == parent_id), None)`. -/
def findThought (all : List Thought) (tid : String) : Option Thought :=
  all.find? (fun t => t.id = tid)

/-- Parent-chain walk used to rebuild the state path of a branch (fuel-bounded
version of the `while temp_thought:` loop; the fuel `|all| + 1` covers every
chain the tree search can build). -/
def statePathAux (all : List Thought) :
    Nat → Option Thought → List (String × String) → List (String × String)
  | 0, _, acc => acc
  | _, Option.none, acc => acc
  | Nat.succ fuel, Option.some t, acc =>
    let acc' := acc ++ [(t.id, t.content)]
    match t.parentId with
    | Option.none => acc'
    | Option.some pid => statePathAux all fuel (findThought all pid) acc'

/-- State path from the root to a thought (`state_path.reverse()`...). -/
def statePath (all : List Thought) (t : Thought) : List (String × String) :=
  (statePathAux all (all.length + 1) (Option.some t) []).reverse

/-- Evaluation of one generated thought: score it, then execute its action
(attaching a truthy result string), as the per-thought body of the
evaluation loop in `_search_tree`. -/
def evalAndExec (or : TotOracles) (t : Thought) : Thought × Rat :=
  let s := or.eval t
  let t1 := { t with score := s }
  let r := executeThoughtAction or.henv t1
  let t2 :=
    match r with
    | Option.some rs => if rs ≠ "" then { t1 with result := Option.some rs } else t1
    | Option.none => t1
  (t2, s)

/-- Stable insertion into a descending-sorted list: the new element (which is
earlier in generation order than everything already in the list) goes before
the first element whose score is less than or equal to its own. -/
def insDesc (x : Thought × Rat) : List (Thought × Rat) → List (Thought × Rat)
  | [] => [x]
  | y :: ys => if y.2 ≤ x.2 then x :: y :: ys else y :: insDesc x ys

/-- Stable descending sort by score.  Python's
`evaluated_thoughts.sort(key=lambda x: x[1], reverse=True)` is a stable sort
descending by score; a stable sort for a given total preorder is unique, so
this insertion sort computes the same list. -/
def sortDesc : List (Thought × Rat) → List (Thought × Rat)
  | [] => []
  | x :: xs => insDesc x (sortDesc xs)

/-- Record of one executed depth of the search: the evaluated thoughts in
generation order, and the same list after the stable descending sort (the
frontier carried forward is a prefix of `sorted`). -/
structure LevelInfo where
  generated : List (Thought × Rat)
  sorted : List (Thought × Rat)

/-- Running state of `_search_tree`. -/
structure TotState where
  all : List Thought
  cur : List (Thought × Rat)
  ctr : Nat
  trace : List LevelInfo

/-- One depth of `_search_tree`: generate (from the empty context at depth 0,
else from each of the top `beam` thoughts of the previous level), and if any
thoughts were produced, evaluate them in order, extend the audit list, sort,
and record the level; `Option.none` models the `break` when no thoughts were
generated. -/
def totGen (or : TotOracles) (bf beam depth : Nat) (st : TotState) :
    List Thought × Nat :=
  if depth = 0 then
    generateThoughts bf 0 Option.none (or.gen [] 0) or.uuid st.ctr
  else
    (st.cur.take beam).foldl (fun (acc : List Thought × Nat) tp =>
      let sp := statePath st.all tp.1
      let pid := (sp.getLast?).map (fun q => q.1)
      let g := generateThoughts bf depth pid (or.gen sp depth) or.uuid acc.2
      (acc.1 ++ g.1, g.2)) ([], st.ctr)

def totLevel (or : TotOracles) (bf beam depth : Nat) (st : TotState) :
    Option TotState :=
  match (totGen or bf beam depth st).1 with
  | [] => Option.none
  | t :: ts =>
    let ev := (t :: ts).map (evalAndExec or)
    let sorted := sortDesc ev
    Option.some ⟨st.all ++ ev.map (fun p => p.1), sorted,
                 (totGen or bf beam depth st).2,
                 st.trace ++ [⟨ev, sorted⟩]⟩

/-- The depth loop of `_search_tree`. -/
def totLoop (or : TotOracles) (bf beam : Nat) :
    Nat → Nat → TotState → TotState
  | 0, _, st => st
  | Nat.succ rem, depth, st =>
    match totLevel or bf beam depth st with
    | Option.none => st
    | Option.some st' => totLoop or bf beam rem (depth + 1) st'

/-- Result of `_search_tree`: all explored thoughts, the final frontier
`[t for t, _ in current_level_thoughts[:beam_width]]`, and the level trace. -/
structure SearchOut where
  allThoughts : List Thought
  finalThoughts : List Thought
  trace : List LevelInfo

/-- The `_search_tree` function. -/
def searchTree (or : TotOracles) (maxDepth bf beam : Nat) : SearchOut :=
  let st := totLoop or bf beam maxDepth 0 ⟨[], [], 0, []⟩
  ⟨st.all, (st.cur.take beam).map (fun p => p.1), st.trace⟩

/-! ## Auxiliary definitions for the theorems below -/

/-- Per-entry form of the `_validate_types` loop body: the offending key, if
this declared argument makes the check fail. -/
def typeCheckOne (kwargs : List (String × PyVal)) (kv : String × List PyType) :
    Option String :=
  match alookup kwargs kv.1 with
  | Option.none => Option.none
  | Option.some v =>
    if v.isNone then Option.none
    else if kv.2.any (fun t => pyIsInstance v t) then Option.none
    else Option.some kv.1

/-- Handler environment in which every handler returns `"handled"`. -/
def okHandlers : HandlerEnv := fun _ _ => .ok "handled"

/-- Handler environment in which every handler raises `"boom"`. -/
def rudeHandlers : HandlerEnv := fun _ _ => .raises "boom"

/-- Registry lookup with a dummy default, for stating closed facts about a
concrete tool. -/
def toolOfName (n : String) : Tool :=
  (alookup TOOLS n).getD { name := "", args := [], required := [], defaults := [], argTypes := [] }

/-- Concrete `echo` step used to instantiate the dispatch claims. -/
def c3Step : Step :=
  { id := Option.some "s1", tool := Option.some "echo",
    args := [("text", PyVal.str "hi")] }

/-- Generation oracle for the duplicate-id run: two thoughts at depth 0, and
a failed generation call (placeholder fallback) for every expanded branch at
depth 1. -/
def c9Gen : List (String × String) → Nat → GenOutcome := fun _ d =>
  if d = 0 then .items [{ thought := "A" }, { thought := "B" }] else .failure

/-- Oracles for the duplicate-id run. -/
def c9Oracles : TotOracles :=
  { gen := c9Gen
    eval := fun _ => halfScore
    uuid := fun n => "u" ++ toString n
    henv := okHandlers }

/-- Oracles for a one-level beam-search run with three generated thoughts of
distinct scores. -/
def c6Oracles : TotOracles :=
  { gen := fun _ d =>
      if d = 0 then .items [{ thought := "A" }, { thought := "B" }, { thought := "C" }]
      else .failure
    eval := fun t => if t.content = "B" then 1 else halfScore
    uuid := fun n => "u" ++ toString n
    henv := okHandlers }

/-- The concrete beam-search run instantiating the frontier claim. -/
def c6Run : SearchOut := searchTree c6Oracles 1 3 2

/-- Its first (and only) level. -/
def c6L0 : LevelInfo := ((c6Run.trace).get? 0).getD ⟨[], []⟩

/-- Dependency-existence condition actually enforced by `_validate_plan`:
every step with a truthy (present, nonempty) id has all its dependency ids
among the plan's ids.  Steps with a missing or empty id are skipped by the
validator. -/
def truthyDepsDefined (plan : List Step) : Prop :=
  ∀ s ∈ plan, ∀ i, s.id = Option.some i → i ≠ "" →
    ∀ d ∈ depsOf s, d ∈ planIds plan

/-- The recursion stack of `has_cycle` as a path: the head of `r` has an edge
to `node`, and so on down to the root call. -/
def RecPath (g : Graph) : List String → String → Prop
  | [], _ => True
  | c :: cs, node => graphRel g c node ∧ RecPath g cs c

/-- A node is safe when no cycle is reachable from it. -/
def Safe (g : Graph) (x : String) : Prop :=
  ∀ a, Relation.ReflTransGen (graphRel g) x a →
    ¬ Relation.TransGen (graphRel g) a a

/-- Two-step cyclic plan (`stepA` and `stepB` depend on each other). -/
def c4CycPlan : List Step :=
  [{ id := Option.some "stepA", dependencies := Option.some ["stepB"] },
   { id := Option.some "stepB", dependencies := Option.some ["stepA"] }]

/-- Plan whose only step has the falsy id `""` and a dependency on an id
absent from the plan. -/
def c4GhostPlan : List Step :=
  [{ id := Option.some "", dependencies := Option.some ["ghost"] }]

/-- Two-step plan in which `b` depends on an id absent from the plan. -/
def c2Plan : List Step :=
  [{ id := Option.some "a" },
   { id := Option.some "b", dependencies := Option.some ["ghost"] }]

/-- Two-step acyclic plan in which `b` depends on `a`; all dependency ids are
defined. -/
def c1Plan : List Step :=
  [{ id := Option.some "a" },
   { id := Option.some "b", dependencies := Option.some ["a"] }]

/-- Invariant tying a search state's trace and current level to the sorting
of each level's generated thoughts. -/
def GoodTot (st : TotState) : Prop :=
  (∀ L ∈ st.trace, L.sorted = sortDesc L.generated)
  ∧ st.cur = (match st.trace.getLast? with
              | Option.some L => L.sorted
              | Option.none => [])

/-! ## Association-list lemmas -/

theorem alookup_mem {α : Type} {l : List (String × α)} {k : String} {v : α}
    (h : alookup l k = Option.some v) : (k, v) ∈ l := by
  induction l with
  | nil => simp [alookup] at h
  | cons p rest ih =>
    by_cases hk : p.1 = k
    · obtain ⟨k', v'⟩ := p
      simp only [alookup] at h
      rw [if_pos hk] at h
      cases h
      subst hk
      exact List.mem_cons_self _ _
    · obtain ⟨k', v'⟩ := p
      simp only [alookup] at h
      rw [if_neg hk] at h
      exact List.mem_cons_of_mem _ (ih h)

theorem alookup_isSome_iff {α : Type} {l : List (String × α)} {k : String} :
    (alookup l k).isSome = true ↔ hasKey l k = true := by
  induction l with
  | nil => simp [alookup, hasKey]
  | cons p rest ih =>
    obtain ⟨k', v'⟩ := p
    by_cases hk : k' = k
    · simp [alookup, hasKey, hk]
    · simp [alookup, hasKey, hk, ih]

theorem alookup_eq_none_iff {α : Type} {l : List (String × α)} {k : String} :
    alookup l k = Option.none ↔ hasKey l k = false := by
  constructor
  · intro h
    by_cases hb : hasKey l k = true
    · obtain ⟨v, hv⟩ := Option.isSome_iff_exists.mp (alookup_isSome_iff.mpr hb)
      rw [h] at hv
      cases hv
    · simpa using hb
  · intro h
    cases hl : alookup l k with
    | none => rfl
    | some v =>
      have : (alookup l k).isSome = true := by rw [hl]; rfl
      rw [alookup_isSome_iff] at this
      rw [this] at h
      cases h

theorem alookup_isSome_of_mem {α : Type} {l : List (String × α)} {k : String}
    {v : α} (h : (k, v) ∈ l) : (alookup l k).isSome = true := by
  induction l with
  | nil => cases h
  | cons p rest ih =>
    obtain ⟨k', v'⟩ := p
    rcases List.mem_cons.mp h with h1 | h1
    · cases h1
      simp [alookup]
    · by_cases hk : k' = k
      · simp [alookup, hk]
      · simpa [alookup, hk] using ih h1

theorem alookup_of_mem_nodup {α : Type} {l : List (String × α)}
    (hnd : (dictKeys l).Nodup) {k : String} {v : α} (h : (k, v) ∈ l) :
    alookup l k = Option.some v := by
  induction l with
  | nil => cases h
  | cons p rest ih =>
    obtain ⟨k', v'⟩ := p
    simp only [dictKeys, List.map_cons, List.nodup_cons] at hnd
    rcases List.mem_cons.mp h with h1 | h1
    · cases h1
      simp [alookup]
    · have hne : k' ≠ k := by
        intro he
        exact hnd.1 (by
          subst he
          exact List.mem_map.mpr ⟨(k', v), h1, rfl⟩)
      simpa [alookup, hne] using ih hnd.2 h1

theorem alookup_dictInsert_self {α : Type} (m : List (String × α)) (k : String)
    (v : α) : alookup (dictInsert m k v) k = Option.some v := by
  induction m with
  | nil => simp [dictInsert, alookup]
  | cons p rest ih =>
    obtain ⟨k', v'⟩ := p
    by_cases hk : k' = k
    · simp [dictInsert, alookup, hk]
    · simp [dictInsert, alookup, hk, ih]

theorem alookup_dictInsert_ne {α : Type} (m : List (String × α)) {k j : String}
    (v : α) (h : j ≠ k) : alookup (dictInsert m k v) j = alookup m j := by
  induction m with
  | nil => simp [dictInsert, alookup, Ne.symm h]
  | cons p rest ih =>
    obtain ⟨k', v'⟩ := p
    simp only [dictInsert]
    by_cases hk : k' = k
    · rw [if_pos hk]
      simp [alookup, hk, Ne.symm h]
    · rw [if_neg hk]
      simp only [alookup]
      by_cases hj : k' = j
      · simp [hj]
      · simp [hj, ih]

theorem hasKey_dictInsert {α : Type} (m : List (String × α)) (k j : String)
    (v : α) : hasKey (dictInsert m k v) j = (hasKey m j || decide (j = k)) := by
  induction m with
  | nil =>
    by_cases hj : j = k
    · simp [dictInsert, hasKey, hj]
    · simp [dictInsert, hasKey, hj, Ne.symm hj]
  | cons p rest ih =>
    obtain ⟨k', v'⟩ := p
    simp only [dictInsert]
    by_cases hk : k' = k
    · rw [if_pos hk]
      by_cases hj : k' = j
      · have h1 : j = k := hj.symm.trans hk
        simp [hasKey, hj, h1]
      · simp only [hasKey, List.any_cons]
        have : decide (k' = j) = false := by simp [hj]
        rw [this]
        have hjk : decide (j = k) = false := by
          simp only [decide_eq_false_iff_not]
          intro he
          exact hj (hk.trans he.symm)
        simp [hjk]
    · rw [if_neg hk]
      simp only [hasKey, List.any_cons]
      rw [show ((dictInsert rest k v).any fun kv => decide (kv.1 = j)) = hasKey (dictInsert rest k v) j from rfl]
      rw [ih]
      simp only [hasKey]
      cases hd : decide (k' = j) <;> simp [Bool.or_assoc]

theorem dictKeys_dictInsert_of_hasKey {α : Type} {m : List (String × α)}
    {k : String} (v : α) (h : hasKey m k = true) :
    dictKeys (dictInsert m k v) = dictKeys m := by
  induction m with
  | nil => simp [hasKey] at h
  | cons p rest ih =>
    obtain ⟨k', v'⟩ := p
    by_cases hk : k' = k
    · simp [dictInsert, dictKeys, hk]
    · simp only [hasKey, List.any_cons] at h
      simp only [dictInsert, if_neg hk, dictKeys, List.map_cons, List.cons.injEq, true_and]
      rcases Bool.or_eq_true_iff.mp h with h1 | h1
      · exact absurd (of_decide_eq_true h1) hk
      · exact ih h1

theorem dictKeys_dictInsert_of_not_hasKey {α : Type} {m : List (String × α)}
    {k : String} (v : α) (h : hasKey m k = false) :
    dictKeys (dictInsert m k v) = dictKeys m ++ [k] := by
  induction m with
  | nil => simp [dictInsert, dictKeys]
  | cons p rest ih =>
    obtain ⟨k', v'⟩ := p
    simp only [hasKey, List.any_cons, Bool.or_eq_false_iff] at h
    have hk : k' ≠ k := by
      intro he
      simp [he] at h
    simp only [dictInsert, if_neg hk, dictKeys, List.map_cons, List.cons_append,
      List.cons.injEq, true_and]
    exact ih h.2

theorem hasKey_dictMerge {α : Type} (a b : List (String × α)) (j : String) :
    hasKey (dictMerge a b) j = (hasKey a j || hasKey b j) := by
  induction b generalizing a with
  | nil => simp [dictMerge, hasKey]
  | cons p rest ih =>
    obtain ⟨k', v'⟩ := p
    show hasKey (dictMerge (dictInsert a k' v') rest) j = _
    rw [ih, hasKey_dictInsert]
    simp only [hasKey, List.any_cons]
    by_cases hj : j = k'
    · subst hj
      simp
    · simp [hj, Ne.symm hj, Bool.or_comm, Bool.or_assoc, Bool.or_left_comm]

/-! ## Dispatch validation lemmas -/

theorem validateTypes_eq (tool : Tool) (kwargs : List (String × PyVal)) :
    validateTypes tool kwargs = tool.argTypes.filterMap (typeCheckOne kwargs) := by
  have aux : ∀ (l : List (String × List PyType)) (acc : List String),
      l.foldl (fun invalid kv =>
        match alookup kwargs kv.1 with
        | Option.none => invalid
        | Option.some v =>
            if v.isNone then invalid
            else if kv.2.any (fun t => pyIsInstance v t) then invalid
            else invalid ++ [kv.1]) acc
        = acc ++ l.filterMap (typeCheckOne kwargs) := by
    intro l
    induction l with
    | nil => intro acc; simp
    | cons kv rest ih =>
      intro acc
      simp only [List.foldl_cons, List.filterMap_cons]
      rw [ih]
      cases hl : alookup kwargs kv.1 with
      | none => simp [typeCheckOne, hl]
      | some v =>
        by_cases hn : v.isNone
        · simp [typeCheckOne, hl, hn]
        · by_cases ha : kv.2.any (fun t => pyIsInstance v t)
          · simp [typeCheckOne, hl, hn, ha]
          · simp [typeCheckOne, hl, hn, ha]
  exact aux tool.argTypes []

theorem validateTypes_mem {tool : Tool} {kwargs : List (String × PyVal)}
    {k : String} :
    k ∈ validateTypes tool kwargs ↔
      ∃ kv ∈ tool.argTypes, typeCheckOne kwargs kv = Option.some k := by
  rw [validateTypes_eq]
  exact List.mem_filterMap

theorem validateTypes_mem_nodup {tool : Tool} {kwargs : List (String × PyVal)}
    {k : String} (hnd : (dictKeys tool.argTypes).Nodup) :
    k ∈ validateTypes tool kwargs ↔
      ∃ tys v, alookup tool.argTypes k = Option.some tys
        ∧ alookup kwargs k = Option.some v
        ∧ v.isNone = false
        ∧ tys.any (fun t => pyIsInstance v t) = false := by
  rw [validateTypes_mem]
  constructor
  · rintro ⟨kv, hmem, hone⟩
    cases hl : alookup kwargs kv.1 with
    | none => simp [typeCheckOne, hl] at hone
    | some v =>
      simp only [typeCheckOne, hl] at hone
      by_cases hn : v.isNone
      · simp [hn] at hone
      · by_cases ha : kv.2.any (fun t => pyIsInstance v t)
        · simp [hn, ha] at hone
        · rw [if_neg (by simpa using hn), if_neg (by simpa using ha)] at hone
          have hk : kv.1 = k := by simpa using hone
          subst hk
          refine ⟨kv.2, v, ?_, hl, by simpa using hn, by simpa using ha⟩
          exact alookup_of_mem_nodup hnd (by simpa using hmem)
  · rintro ⟨tys, v, hty, hkw, hn, ha⟩
    refine ⟨(k, tys), alookup_mem hty, ?_⟩
    simp [typeCheckOne, hkw, hn, ha]

theorem runTool_some (henv : HandlerEnv) (name : String) (tool : Tool)
    (kwargs : List (String × PyVal)) (h : alookup TOOLS name = Option.some tool) :
    runTool henv name kwargs =
      (if (validateArgs tool kwargs).2 ≠ [] then
        Except.error (.invalidArgs name (sortedKeys (validateArgs tool kwargs).2))
      else if validateTypes tool (validateArgs tool kwargs).1 ≠ [] then
        Except.error (.invalidTypes name
          (sortedKeys (validateTypes tool (validateArgs tool kwargs).1)))
      else
        match henv name (validateArgs tool kwargs).1 with
        | .ok s => Except.ok s
        | .raises m => Except.error (.handlerRaised m)) := by
  unfold runTool
  rw [h]

theorem mem_sortedKeys {l : List String} {k : String} :
    k ∈ sortedKeys l ↔ k ∈ l := by
  unfold sortedKeys
  rw [List.mem_mergeSort, List.mem_dedup]

/-! ## Claim theorems: tool dispatch -/

/-- C10: the result `_execute_step` produces depends only on the step itself
(and the registry/handlers), never on the results map it is passed: two
executions of the same step against different dependency-results maps are
identical, so predecessor results are never substituted into a step's
arguments. -/
theorem executeStep_ignores_results (henv : HandlerEnv) (step : Step)
    (r1 r2 : List (String × String)) :
    executeStep henv step r1 = executeStep henv step r2 := rfl

/-- C8 counterexample: supplying `None` for the `text` argument of `echo`,
whose declared type is plain `str` (not nullable), does not produce an
invalid-argument-type error — the type check skips `None` values entirely and
dispatch proceeds to the handler. -/
theorem noneArg_accepted_counterexample :
    ((alookup TOOLS "echo").map (fun t => validateTypes t [("text", PyVal.none)]))
        = Option.some []
    ∧ runTool okHandlers "echo" [("text", PyVal.none)] = Except.ok "handled" :=
  ⟨rfl, rfl⟩

/-- C8 (amended): a `None` value supplied for a declared argument is always
accepted by dispatch type checking, whether or not the declared type includes
`null`; a declared argument fails the type check exactly when its merged
value is present, is not `None`, and matches none of the declared types. -/
theorem validateTypes_none_skipped (tool : Tool) (kwargs : List (String × PyVal))
    (k : String) (hnd : (dictKeys tool.argTypes).Nodup) :
    k ∈ validateTypes tool kwargs ↔
      ∃ tys v, alookup tool.argTypes k = Option.some tys
        ∧ alookup kwargs k = Option.some v
        ∧ v.isNone = false
        ∧ tys.any (fun t => pyIsInstance v t) = false :=
  validateTypes_mem_nodup hnd

/-- C8 witness: a non-`None` mistyped value (`0` for `echo`'s `str`-typed
`text`) is reported by the type check. -/
theorem validateTypes_none_skipped_witness :
    (dictKeys (toolOfName "echo").argTypes).Nodup
    ∧ "text" ∈ validateTypes (toolOfName "echo") [("text", PyVal.int 0)] := by
  refine ⟨by decide, ?_⟩
  exact (validateTypes_none_skipped (toolOfName "echo") [("text", PyVal.int 0)]
    "text" (by decide)).mpr ⟨[.str], PyVal.int 0, rfl, rfl, rfl, rfl⟩

/-- C7: `run_tool` raises an unknown-tool error for every unregistered name;
for a registered tool it raises an invalid/missing-arguments error whose key
list names the offending key whenever a required argument with no default is
omitted or an argument outside the tool's schema is supplied; and, when the
first validation passes, it raises an invalid-argument-types error whose key
list names any declared key whose supplied (non-`None`) value matches none of
the declared types — for example a string where an integer is declared. -/
theorem runTool_validation_errors :
    (∀ (henv : HandlerEnv) (name : String) (kwargs : List (String × PyVal)),
      alookup TOOLS name = Option.none →
        runTool henv name kwargs = Except.error (.unknownTool name))
    ∧ (∀ (henv : HandlerEnv) (name : String) (tool : Tool)
        (kwargs : List (String × PyVal)) (k : String),
        alookup TOOLS name = Option.some tool →
        ((k ∈ tool.required ∧ hasKey tool.defaults k = false ∧ hasKey kwargs k = false)
          ∨ (hasKey kwargs k = true ∧ hasKey tool.args k = false)) →
        runTool henv name kwargs
            = Except.error (.invalidArgs name (sortedKeys (validateArgs tool kwargs).2))
          ∧ k ∈ sortedKeys (validateArgs tool kwargs).2)
    ∧ (∀ (henv : HandlerEnv) (name : String) (tool : Tool)
        (kwargs : List (String × PyVal)) (k : String) (v : PyVal) (tys : List PyType),
        alookup TOOLS name = Option.some tool →
        (validateArgs tool kwargs).2 = [] →
        alookup tool.argTypes k = Option.some tys →
        alookup (validateArgs tool kwargs).1 k = Option.some v →
        v.isNone = false →
        tys.any (fun t => pyIsInstance v t) = false →
        runTool henv name kwargs
            = Except.error (.invalidTypes name
                (sortedKeys (validateTypes tool (validateArgs tool kwargs).1)))
          ∧ k ∈ sortedKeys (validateTypes tool (validateArgs tool kwargs).1)) := by
  refine ⟨?_, ?_, ?_⟩
  · intro henv name kwargs h
    unfold runTool
    rw [h]
  · intro henv name tool kwargs k h hk
    have hmem : k ∈ (validateArgs tool kwargs).2 := by
      simp only [validateArgs, List.mem_append]
      rcases hk with ⟨hr, hd, hw⟩ | ⟨hw, ha⟩
      · right
        refine List.mem_filter.mpr ⟨hr, ?_⟩
        rw [hasKey_dictMerge, hd, hw]
        simp
      · left
        refine List.mem_filter.mpr ⟨?_, ?_⟩
        · simp only [dictKeys]
          obtain ⟨p, hp, hpk⟩ := List.any_eq_true.mp hw
          exact List.mem_map.mpr ⟨p, hp, of_decide_eq_true hpk⟩
        · rw [ha]
          simp
    have hne : (validateArgs tool kwargs).2 ≠ [] := List.ne_nil_of_mem hmem
    rw [runTool_some henv name tool kwargs h, if_pos hne]
    exact ⟨rfl, mem_sortedKeys.mpr hmem⟩
  · intro henv name tool kwargs k v tys h hB hty hv hn ha
    have hmem : k ∈ validateTypes tool (validateArgs tool kwargs).1 :=
      validateTypes_mem.mpr ⟨(k, tys), alookup_mem hty, by
        simp [typeCheckOne, hv, hn, ha]⟩
    have hne : validateTypes tool (validateArgs tool kwargs).1 ≠ [] :=
      List.ne_nil_of_mem hmem
    rw [runTool_some henv name tool kwargs h, if_neg (by simp [hB]), if_pos hne]
    exact ⟨rfl, mem_sortedKeys.mpr hmem⟩

/-- C7 witness: the three failure kinds at concrete inputs — an unregistered
tool name, `read_file` without its required `path_str`, `echo` with an
undeclared argument, and `read_file` with a string where `int` is declared. -/
theorem runTool_validation_errors_witness :
    runTool okHandlers "nope" [("x", PyVal.int 1)] = Except.error (.unknownTool "nope")
    ∧ runTool okHandlers "read_file" []
        = Except.error (.invalidArgs "read_file"
            (sortedKeys (validateArgs (toolOfName "read_file") []).2))
    ∧ "bogus" ∈ sortedKeys (validateArgs (toolOfName "echo")
        [("text", PyVal.str "t"), ("bogus", PyVal.int 1)]).2
    ∧ "max_chars" ∈ sortedKeys (validateTypes (toolOfName "read_file")
        (validateArgs (toolOfName "read_file")
          [("path_str", PyVal.str "f"), ("max_chars", PyVal.str "many")]).1) := by
  refine ⟨?_, ?_, ?_, ?_⟩
  · exact runTool_validation_errors.1 okHandlers "nope" [("x", PyVal.int 1)] rfl
  · exact (runTool_validation_errors.2.1 okHandlers "read_file" (toolOfName "read_file")
      [] "path_str" rfl (Or.inl ⟨by decide, rfl, rfl⟩)).1
  · exact (runTool_validation_errors.2.1 okHandlers "echo" (toolOfName "echo")
      [("text", PyVal.str "t"), ("bogus", PyVal.int 1)] "bogus" rfl
      (Or.inr ⟨rfl, rfl⟩)).2
  · exact (runTool_validation_errors.2.2 okHandlers "read_file" (toolOfName "read_file")
      [("path_str", PyVal.str "f"), ("max_chars", PyVal.str "many")]
      "max_chars" (PyVal.str "many") [.int] rfl rfl rfl rfl rfl rfl).2

/-- C3: for a registered tool and an argument map passing both validation
checks, dispatch reaches the handler and can only yield the handler's string
or a handler-raised failure (never one of the validation errors), and the
engine's step executor turns a handler-raised failure into a descriptive
string result, so a step's execution always produces a string outcome. -/
theorem dispatch_returns_string_outcome (henv : HandlerEnv) (name : String)
    (tool : Tool) (kwargs : List (String × PyVal))
    (hreg : alookup TOOLS name = Option.some tool)
    (hargs : (validateArgs tool kwargs).2 = [])
    (htypes : validateTypes tool (validateArgs tool kwargs).1 = []) :
    (runTool henv name kwargs =
      match henv name (validateArgs tool kwargs).1 with
      | .ok s => Except.ok s
      | .raises m => Except.error (.handlerRaised m))
    ∧ (∀ (st : Step) (res : List (String × String)),
        st.action ≠ Option.some "final" → st.tool = Option.some name →
        st.args = kwargs →
        executeStep henv st res =
          (st.id.getD "unknown",
            match henv name (validateArgs tool kwargs).1 with
            | .ok s => s
            | .raises m => executeErrMsg name (st.id.getD "unknown") m)) := by
  have hrun : runTool henv name kwargs =
      match henv name (validateArgs tool kwargs).1 with
      | .ok s => Except.ok s
      | .raises m => Except.error (.handlerRaised m) := by
    rw [runTool_some henv name tool kwargs hreg, if_neg (by simp [hargs]),
      if_neg (by simp [htypes])]
  refine ⟨hrun, ?_⟩
  intro st res hfin htool hargs'
  have hname : name ≠ "" := by
    intro he
    subst he
    have : (alookup TOOLS "").isSome = true := by rw [hreg]; rfl
    simp [TOOLS, alookup] at this
  have hkey : hasKey TOOLS name = true := alookup_isSome_iff.mp (by rw [hreg]; rfl)
  have htr : optStrTruthy (Option.some name) = true := by
    simp [optStrTruthy, hname]
  unfold executeStep
  rw [if_neg hfin, htool]
  simp only [Option.getD_some]
  rw [if_neg (by simp [htr] : ¬ ¬ optStrTruthy (Option.some name) = true)]
  rw [if_neg (by simp [hkey] : ¬ ¬ hasKey TOOLS name = true)]
  rw [hargs', hrun]
  cases henv name (validateArgs tool kwargs).1 <;> rfl

/-- C3 witness: `echo` with a valid argument map and a handler that raises is
converted by the step executor into a descriptive error-string result. -/
theorem dispatch_returns_string_outcome_witness :
    runTool rudeHandlers "echo" [("text", PyVal.str "hi")]
        = Except.error (.handlerRaised "boom")
    ∧ executeStep rudeHandlers c3Step []
        = ("s1", "Error executing echo in step s1: boom") := by
  have h := dispatch_returns_string_outcome rudeHandlers "echo" (toolOfName "echo")
    [("text", PyVal.str "hi")] rfl rfl rfl
  exact ⟨h.1, h.2 c3Step [] (by simp [c3Step]) rfl rfl⟩

/-! ## Claim theorems: plan extraction -/

/-- C5 counterexample: on the input `"[]"` the simple bracket regex matches
`[]`, which parses as the empty JSON array, so `_extract_plan` returns the
empty plan — not a non-empty one. -/
theorem extractPlan_empty_counterexample : extractPlan "[]" = [] := rfl

/-- C5 (amended): `_extract_plan` is total, and whenever none of the three
attempts (fenced block, bracket substring, whole text) yields a JSON array it
returns exactly one `final` step whose answer is the raw input verbatim with
empty dependencies; when an attempt does yield an array, that array's
elements are returned as-is, which can be an empty plan (input `"[]"`) or
contain non-object elements. -/
theorem extractPlan_fallback (r : String)
    (h1 : (fencedArrayMatch r).bind arrOf = Option.none)
    (h2 : (simpleArrayMatch r).bind arrOf = Option.none)
    (h3 : arrOf r = Option.none) :
    extractPlan r = [fallbackStepDict r] := by
  unfold extractPlan
  rw [h1, h2, h3]

/-- C5 witness: on the free text `"hello"` every attempt fails and the
fallback single-step plan carrying the raw text is returned. -/
theorem extractPlan_fallback_witness :
    ((fencedArrayMatch "hello").bind arrOf = Option.none)
    ∧ ((simpleArrayMatch "hello").bind arrOf = Option.none)
    ∧ (arrOf "hello" = Option.none)
    ∧ extractPlan "hello" = [fallbackStepDict "hello"] :=
  ⟨rfl, rfl, rfl, extractPlan_fallback "hello" rfl rfl rfl⟩

/-! ## Stable-sort lemmas for the tree scheduler -/

theorem insDesc_perm (x : Thought × Rat) (l : List (Thought × Rat)) :
    List.Perm (insDesc x l) (x :: l) := by
  induction l with
  | nil => rfl
  | cons y ys ih =>
    by_cases h : y.2 ≤ x.2
    · simp [insDesc, h]
    · simp only [insDesc, if_neg h]
      exact (ih.cons y).trans (List.Perm.swap x y ys)

theorem sortDesc_perm (l : List (Thought × Rat)) :
    List.Perm (sortDesc l) l := by
  induction l with
  | nil => rfl
  | cons x xs ih => exact (insDesc_perm x (sortDesc xs)).trans (ih.cons x)

theorem sortDesc_length (l : List (Thought × Rat)) :
    (sortDesc l).length = l.length := (sortDesc_perm l).length_eq

theorem pairwise_insDesc {x : Thought × Rat} {l : List (Thought × Rat)}
    (h : l.Pairwise (fun a b => b.2 ≤ a.2)) :
    (insDesc x l).Pairwise (fun a b => b.2 ≤ a.2) := by
  induction l with
  | nil => simp [insDesc]
  | cons y ys ih =>
    rcases List.pairwise_cons.mp h with ⟨hy, hys⟩
    by_cases hc : y.2 ≤ x.2
    · simp only [insDesc, if_pos hc]
      refine List.pairwise_cons.mpr ⟨?_, h⟩
      intro z hz
      rcases List.mem_cons.mp hz with rfl | hz
      · exact hc
      · exact le_trans (hy z hz) hc
    · simp only [insDesc, if_neg hc]
      refine List.pairwise_cons.mpr ⟨?_, ih hys⟩
      intro z hz
      have : z = x ∨ z ∈ ys := by
        have := (insDesc_perm x ys).mem_iff.mp hz
        simpa using this
      rcases this with rfl | hz'
      · exact le_of_lt (lt_of_not_le hc)
      · exact hy z hz'

theorem pairwise_sortDesc (l : List (Thought × Rat)) :
    (sortDesc l).Pairwise (fun a b => b.2 ≤ a.2) := by
  induction l with
  | nil => simp [sortDesc]
  | cons x xs ih => exact pairwise_insDesc ih

theorem filter_insDesc (s : Rat) (x : Thought × Rat) (l : List (Thought × Rat)) :
    (insDesc x l).filter (fun p => decide (p.2 = s)) =
      if x.2 = s then x :: l.filter (fun p => decide (p.2 = s))
      else l.filter (fun p => decide (p.2 = s)) := by
  induction l with
  | nil =>
    simp only [insDesc]
    by_cases hx : x.2 = s <;> simp [hx]
  | cons y ys ih =>
    simp only [insDesc]
    by_cases hc : y.2 ≤ x.2
    · rw [if_pos hc]
      by_cases hx : x.2 = s <;> simp [hx]
    · rw [if_neg hc]
      have hgt : x.2 < y.2 := lt_of_not_le hc
      by_cases hx : x.2 = s
      · have hy : ¬ y.2 = s := by
          intro he
          rw [hx] at hgt
          rw [he] at hgt
          exact lt_irrefl s hgt
        simp [List.filter_cons, hy, ih, hx]
      · by_cases hy : y.2 = s <;> simp [List.filter_cons, hy, ih, hx]

theorem filter_sortDesc (s : Rat) (l : List (Thought × Rat)) :
    (sortDesc l).filter (fun p => decide (p.2 = s)) =
      l.filter (fun p => decide (p.2 = s)) := by
  induction l with
  | nil => rfl
  | cons x xs ih =>
    show ((insDesc x (sortDesc xs)).filter _) = _
    rw [filter_insDesc]
    by_cases hx : x.2 = s <;> simp [hx, ih]

theorem totLevel_good {or : TotOracles} {bf beam depth : Nat} {st st' : TotState}
    (hg : GoodTot st) (h : totLevel or bf beam depth st = Option.some st') :
    GoodTot st' := by
  unfold totLevel at h
  cases hl : (totGen or bf beam depth st).1 with
  | nil => rw [hl] at h; cases h
  | cons t ts =>
    rw [hl] at h
    cases h
    constructor
    · intro L hL
      rcases List.mem_append.mp hL with hL | hL
      · exact hg.1 L hL
      · rcases List.mem_singleton.mp hL with rfl
        rfl
    · simp

theorem totLoop_good (or : TotOracles) (bf beam : Nat) :
    ∀ (rem depth : Nat) (st : TotState), GoodTot st →
      GoodTot (totLoop or bf beam rem depth st) := by
  intro rem
  induction rem with
  | zero => intro depth st h; exact h
  | succ n ih =>
    intro depth st h
    unfold totLoop
    cases hl : totLevel or bf beam depth st with
    | none => exact h
    | some st' => exact ih (depth + 1) st' (totLevel_good h hl)

/-! ## Claim theorems: tree scheduler -/

/-- C6: at every executed depth of `_search_tree`, the frontier carried to
the next depth (the first `beamWidth` elements of the stably sorted level,
which is also the final frontier when this is the last executed depth)
contains exactly `min(beamWidth, number of thoughts generated at that depth)`
thoughts; every retained thought's score is at least every discarded
thought's score; and thoughts of equal score keep their generation order
(first-generated wins ties), stated as: filtering the sorted level by any
score value yields exactly the generation-ordered thoughts of that score. -/
theorem frontier_beam_invariant (or : TotOracles) (maxDepth bf beam : Nat)
    (d : Nat) (L : LevelInfo)
    (h : (searchTree or maxDepth bf beam).trace.get? d = Option.some L) :
    (L.sorted.take beam).length = min beam L.generated.length
    ∧ (∀ x ∈ L.sorted.take beam, ∀ y ∈ L.sorted.drop beam, y.2 ≤ x.2)
    ∧ (∀ s : Rat, L.sorted.filter (fun p => decide (p.2 = s))
        = L.generated.filter (fun p => decide (p.2 = s)))
    ∧ ((searchTree or maxDepth bf beam).trace.get? (d + 1) = Option.none →
        (searchTree or maxDepth bf beam).finalThoughts
          = (L.sorted.take beam).map (fun p => p.1)) := by
  have hgood : GoodTot (totLoop or bf beam maxDepth 0 ⟨[], [], 0, []⟩) :=
    totLoop_good or bf beam maxDepth 0 ⟨[], [], 0, []⟩ ⟨by simp, rfl⟩
  have htr : (searchTree or maxDepth bf beam).trace
      = (totLoop or bf beam maxDepth 0 ⟨[], [], 0, []⟩).trace := rfl
  have hmem : L ∈ (totLoop or bf beam maxDepth 0 ⟨[], [], 0, []⟩).trace := by
    rw [htr] at h
    exact List.get?_mem h
  have hs : L.sorted = sortDesc L.generated := hgood.1 L hmem
  refine ⟨?_, ?_, ?_, ?_⟩
  · rw [hs, List.length_take, sortDesc_length]
  · intro x hx y hy
    have hp : (L.sorted.take beam ++ L.sorted.drop beam).Pairwise
        (fun a b => b.2 ≤ a.2) := by
      rw [List.take_append_drop]
      rw [hs]
      exact pairwise_sortDesc L.generated
    exact (List.pairwise_append.mp hp).2.2 x hx y hy
  · intro s
    rw [hs]
    exact filter_sortDesc s L.generated
  · intro hnone
    rw [htr] at h hnone
    have hlen : (totLoop or bf beam maxDepth 0 ⟨[], [], 0, []⟩).trace.length = d + 1 := by
      have h1 : (totLoop or bf beam maxDepth 0 ⟨[], [], 0, []⟩).trace.length ≤ d + 1 :=
        List.get?_eq_none.mp hnone
      have h2 : d < (totLoop or bf beam maxDepth 0 ⟨[], [], 0, []⟩).trace.length := by
        by_contra hc
        rw [List.get?_eq_none.mpr (Nat.le_of_not_lt hc)] at h
        cases h
      omega
    have hlast : (totLoop or bf beam maxDepth 0 ⟨[], [], 0, []⟩).trace.getLast?
        = Option.some L := by
      rw [List.getLast?_eq_get?, hlen]
      simpa using h
    have hcur : (totLoop or bf beam maxDepth 0 ⟨[], [], 0, []⟩).cur = L.sorted := by
      rw [hgood.2, hlast]
    show ((totLoop or bf beam maxDepth 0 ⟨[], [], 0, []⟩).cur.take beam).map (fun p => p.1) = _
    rw [hcur]

/-- C6 witness: a depth-0 level of a concrete run, where the frontier size is
`min(beamWidth, generated)`. -/
theorem frontier_beam_invariant_witness :
    c6Run.trace.get? 0 = Option.some c6L0
    ∧ (c6L0.sorted.take 2).length = min 2 c6L0.generated.length := by
  have h : c6Run.trace.get? 0 = Option.some c6L0 := rfl
  exact ⟨h, (frontier_beam_invariant c6Oracles 1 3 2 0 c6L0 h).1⟩

/-- C9 (exhibit of the failing input): in a run with two depth-0 thoughts in
which the generation call fails for both expanded branches at depth 1, the
placeholder-fallback path creates thoughts whose ids repeat across branches:
`fallback_1_0` and `fallback_1_1` each occur twice among all created
thoughts, violating id uniqueness. -/
theorem thought_ids_duplicate :
    (searchTree c9Oracles 2 2 2).allThoughts.map (fun t => t.id)
      = ["thought_0_0_u0", "thought_0_1_u1",
         "fallback_1_0", "fallback_1_1", "fallback_1_0", "fallback_1_1"] := by
  decide

/-! ## Scheduler lemmas -/

theorem hasKey_iff_mem_dictKeys {α : Type} {m : List (String × α)} {k : String} :
    hasKey m k = true ↔ k ∈ dictKeys m := by
  simp only [hasKey, dictKeys, List.any_eq_true, List.mem_map]
  constructor
  · rintro ⟨p, hp, he⟩
    exact ⟨p, hp, of_decide_eq_true he⟩
  · rintro ⟨p, hp, he⟩
    exact ⟨p, hp, decide_eq_true he⟩

theorem mem_dictInsert {α : Type} {m : List (String × α)} {k : String} {v : α}
    {p : String × α} (h : p ∈ dictInsert m k v) :
    p ∈ m ∨ p = (k, v) := by
  induction m with
  | nil => simpa [dictInsert] using h
  | cons q rest ih =>
    obtain ⟨qk, qv⟩ := q
    simp only [dictInsert] at h
    by_cases hq : qk = k
    · rw [if_pos hq] at h
      rcases List.mem_cons.mp h with rfl | h1
      · exact Or.inr (by rw [hq])
      · exact Or.inl (List.mem_cons_of_mem _ h1)
    · rw [if_neg hq] at h
      rcases List.mem_cons.mp h with rfl | h1
      · exact Or.inl (List.mem_cons_self _ _)
      · rcases ih h1 with h2 | h2
        · exact Or.inl (List.mem_cons_of_mem _ h2)
        · exact Or.inr h2

theorem stepMapOf_mem {plan : List Step} {p : String × Step}
    (h : p ∈ stepMapOf plan) : p.2.id = Option.some p.1 ∧ p.2 ∈ plan := by
  have aux : ∀ (l : List Step) (m : List (String × Step)),
      (∀ q ∈ m, q.2.id = Option.some q.1 ∧ q.2 ∈ l ∨ q ∈ ([] : List (String × Step))) →
      True := fun _ _ _ => trivial
  clear aux
  have main : ∀ (l : List Step) (m : List (String × Step)),
      (∀ q ∈ m, q.2.id = Option.some q.1 ∧ (q.2 ∈ plan)) →
      (∀ s ∈ l, s ∈ plan) →
      ∀ q ∈ l.foldl (fun m s =>
          match s.id with
          | Option.some i => dictInsert m i s
          | Option.none => m) m,
        q.2.id = Option.some q.1 ∧ q.2 ∈ plan := by
    intro l
    induction l with
    | nil => intro m hm _ q hq; exact hm q hq
    | cons s rest ih =>
      intro m hm hl q hq
      simp only [List.foldl_cons] at hq
      cases hs : s.id with
      | none =>
        rw [hs] at hq
        exact ih m hm (fun x hx => hl x (List.mem_cons_of_mem _ hx)) q hq
      | some i =>
        rw [hs] at hq
        refine ih (dictInsert m i s) ?_ (fun x hx => hl x (List.mem_cons_of_mem _ hx)) q hq
        intro x hx
        rcases mem_dictInsert hx with h1 | h1
        · exact hm x h1
        · subst h1
          exact ⟨hs, hl s (List.mem_cons_self _ _)⟩
  exact main plan [] (by simp) (fun s hs => hs) p h

theorem stepMapOf_keys_sub {plan : List Step} {i : String}
    (h : i ∈ dictKeys (stepMapOf plan)) : i ∈ planIds plan := by
  rcases List.mem_map.mp h with ⟨p, hp, rfl⟩
  obtain ⟨hid, hmem⟩ := stepMapOf_mem hp
  exact List.mem_filterMap.mpr ⟨p.2, hmem, hid⟩

theorem planIds_sub_stepMapOf_keys {plan : List Step} {i : String}
    (h : i ∈ planIds plan) : i ∈ dictKeys (stepMapOf plan) := by
  have main : ∀ (l : List Step) (m : List (String × Step)),
      (i ∈ dictKeys m ∨ i ∈ planIds l) →
      i ∈ dictKeys (l.foldl (fun m s =>
          match s.id with
          | Option.some j => dictInsert m j s
          | Option.none => m) m) := by
    intro l
    induction l with
    | nil =>
      intro m hm
      rcases hm with hm | hm
      · exact hm
      · simp [planIds] at hm
    | cons s rest ih =>
      intro m hm
      simp only [List.foldl_cons]
      cases hs : s.id with
      | none =>
        refine ih m ?_
        rcases hm with hm | hm
        · exact Or.inl hm
        · right
          simpa [planIds, List.filterMap_cons, hs] using hm
      | some j =>
        refine ih (dictInsert m j s) ?_
        rcases hm with hm | hm
        · left
          rw [← hasKey_iff_mem_dictKeys] at hm ⊢
          rw [hasKey_dictInsert]
          simp [hm]
        · simp only [planIds, List.filterMap_cons, hs] at hm
          rcases List.mem_cons.mp hm with rfl | hm
          · left
            rw [← hasKey_iff_mem_dictKeys, hasKey_dictInsert]
            simp
          · exact Or.inr hm
  exact main plan [] (Or.inr h)

theorem stepMapOf_keys_nodup (plan : List Step) :
    (dictKeys (stepMapOf plan)).Nodup := by
  have main : ∀ (l : List Step) (m : List (String × Step)),
      (dictKeys m).Nodup →
      (dictKeys (l.foldl (fun m s =>
          match s.id with
          | Option.some j => dictInsert m j s
          | Option.none => m) m)).Nodup := by
    intro l
    induction l with
    | nil => intro m hm; exact hm
    | cons s rest ih =>
      intro m hm
      simp only [List.foldl_cons]
      cases hs : s.id with
      | none => exact ih m hm
      | some j =>
        refine ih (dictInsert m j s) ?_
        by_cases hk : hasKey m j = true
        · rw [dictKeys_dictInsert_of_hasKey s hk]
          exact hm
        · rw [dictKeys_dictInsert_of_not_hasKey s (by simpa using hk)]
          refine List.Nodup.append hm (List.nodup_singleton j) ?_
          intro x hx hx'
          rcases List.mem_singleton.mp hx' with rfl
          exact hk (hasKey_iff_mem_dictKeys.mpr hx)
  exact main plan [] (by simp [dictKeys])

theorem executeStep_fst (henv : HandlerEnv) (s : Step)
    (res : List (String × String)) :
    (executeStep henv s res).1 = s.id.getD "unknown" := by
  simp only [executeStep]
  split
  · rfl
  · split
    · rfl
    · split
      · rfl
      · split <;> rfl

theorem readyOf_mem {sm : List (String × Step)} {comp : List String}
    {q : String × Step} (h : q ∈ readyOf sm comp) :
    q ∈ sm ∧ q.1 ∉ comp ∧ ∀ d ∈ depsOf q.2, d ∈ comp := by
  have h1 := List.mem_filter.mp h
  refine ⟨h1.1, ?_, ?_⟩
  · have := h1.2
    rw [Bool.and_eq_true] at this
    exact of_decide_eq_true this.1
  · have := h1.2
    rw [Bool.and_eq_true] at this
    exact of_decide_eq_true this.2

theorem readyOf_keys_sublist (sm : List (String × Step)) (comp : List String) :
    ((readyOf sm comp).map Prod.fst).Sublist (sm.map Prod.fst) :=
  List.Sublist.map Prod.fst (List.filter_sublist sm)

theorem roundFold_spec (henv : HandlerEnv) :
    ∀ (l : List (String × Step)) (res : List (String × String)) (comp : List String),
      dictKeys res = comp →
      (∀ q ∈ l, q.2.id = Option.some q.1) →
      ((l.map Prod.fst).Nodup) →
      (∀ q ∈ l, q.1 ∉ comp) →
      (l.foldl (roundFold henv) (res, comp)).2 = comp ++ l.map Prod.fst
      ∧ dictKeys (l.foldl (roundFold henv) (res, comp)).1 = comp ++ l.map Prod.fst := by
  intro l
  induction l with
  | nil => intro res comp h1 _ _ _; simp [h1]
  | cons q rest ih =>
    intro res comp h1 h2 h3 h4
    simp only [List.foldl_cons]
    have hfst : (executeStep henv q.2 res).1 = q.1 := by
      rw [executeStep_fst, h2 q (List.mem_cons_self _ _)]
      rfl
    have hqnc : q.1 ∉ comp := h4 q (List.mem_cons_self _ _)
    have hno : hasKey res q.1 = false := by
      by_contra hc
      have : hasKey res q.1 = true := by simpa using hc
      exact hqnc (h1 ▸ hasKey_iff_mem_dictKeys.mp this)
    have hstep : roundFold henv (res, comp) q
        = (dictInsert res q.1 (executeStep henv q.2 res).2, comp ++ [q.1]) := by
      simp only [roundFold]
      rw [hfst]
      rw [if_neg hqnc]
    rw [hstep]
    have hkeys : dictKeys (dictInsert res q.1 (executeStep henv q.2 res).2)
        = comp ++ [q.1] := by
      rw [dictKeys_dictInsert_of_not_hasKey _ hno, h1]
    have h3' : (q.1 :: rest.map Prod.fst).Nodup := by simpa using h3
    obtain ⟨hq1, hrest⟩ := List.nodup_cons.mp h3'
    have := ih (dictInsert res q.1 (executeStep henv q.2 res).2) (comp ++ [q.1])
      hkeys
      (fun x hx => h2 x (List.mem_cons_of_mem _ hx))
      hrest
      ?_
    · rcases this with ⟨ha, hb⟩
      constructor
      · rw [ha]
        simp
      · rw [hb]
        simp
    · intro x hx hxc
      rcases List.mem_append.mp hxc with hxc | hxc
      · exact h4 x (List.mem_cons_of_mem _ hx) hxc
      · rcases List.mem_singleton.mp hxc with he
        have hxm : x.1 ∈ rest.map Prod.fst := List.mem_map.mpr ⟨x, hx, rfl⟩
        exact hq1 (he ▸ hxm)

theorem execLoop_rounds_le (henv : HandlerEnv) (sm : List (String × Step)) :
    ∀ (fuel : Nat) (res : List (String × String)) (comp : List String)
      (tr : List (List String)),
      (execLoop henv sm fuel res comp tr).rounds.length ≤ fuel + tr.length := by
  intro fuel
  induction fuel with
  | zero => intro res comp tr; simp [execLoop]
  | succ n ih =>
    intro res comp tr
    unfold execLoop
    by_cases hc : comp.length < sm.length
    · rw [if_pos hc]
      cases hr : readyOf sm comp with
      | nil => simp
      | cons p ps =>
        refine le_trans (ih _ _ _) ?_
        simp only [List.length_cons]
        omega
    · rw [if_neg hc]
      simp

theorem execLoop_keys (henv : HandlerEnv) (sm : List (String × Step))
    (hsm : ∀ q ∈ sm, q.2.id = Option.some q.1)
    (hnd : (sm.map Prod.fst).Nodup) :
    ∀ (fuel : Nat) (res : List (String × String)) (comp : List String)
      (tr : List (List String)),
      dictKeys res = comp → comp.Nodup →
      dictKeys (execLoop henv sm fuel res comp tr).results
          = (execLoop henv sm fuel res comp tr).completed
        ∧ (execLoop henv sm fuel res comp tr).completed.Nodup := by
  intro fuel
  induction fuel with
  | zero => intro res comp tr h1 h2; exact ⟨h1, h2⟩
  | succ n ih =>
    intro res comp tr h1 h2
    unfold execLoop
    by_cases hc : comp.length < sm.length
    · rw [if_pos hc]
      cases hr : readyOf sm comp with
      | nil => exact ⟨h1, h2⟩
      | cons p ps =>
        have hready : ∀ q ∈ readyOf sm comp, q ∈ sm ∧ q.1 ∉ comp ∧ _ :=
          fun q hq => readyOf_mem hq
        have hspec := roundFold_spec henv (p :: ps) res comp h1
          (fun q hq => hsm q ((readyOf_mem (hr ▸ hq)).1))
          (by
            have := readyOf_keys_sublist sm comp
            rw [hr] at this
            exact this.nodup hnd)
          (fun q hq => (readyOf_mem (hr ▸ hq)).2.1)
        have hnodup : (comp ++ (p :: ps).map Prod.fst).Nodup := by
          refine List.Nodup.append h2 ?_ ?_
          · have := readyOf_keys_sublist sm comp
            rw [hr] at this
            exact this.nodup hnd
          · intro x hx hx'
            rcases List.mem_map.mp hx' with ⟨q, hq, rfl⟩
            exact (readyOf_mem (hr ▸ hq)).2.1 hx
        have := ih ((p :: ps).foldl (roundFold henv) (res, comp)).1
          ((p :: ps).foldl (roundFold henv) (res, comp)).2
          (((p :: ps).map Prod.fst) :: tr)
          (by rw [hspec.1, hspec.2])
          (by rw [hspec.1]; exact hnodup)
        exact this
    · rw [if_neg hc]
      exact ⟨h1, h2⟩

theorem fill_preserves (comp : List String) :
    ∀ (sm : List (String × Step)) (res : List (String × String)) (j : String)
      (v : String), alookup res j = Option.some v →
      alookup (sm.foldl (fillStep comp) res) j = Option.some v := by
  intro sm
  induction sm with
  | nil => intro res j v h; exact h
  | cons p rest ih =>
    intro res j v h
    simp only [List.foldl_cons]
    refine ih (fillStep comp res p) j v ?_
    unfold fillStep
    by_cases h1 : p.1 ∈ comp
    · rw [if_pos h1]; exact h
    · rw [if_neg h1]
      by_cases h2 : (alookup res p.1).isSome = true
      · rw [if_pos h2]; exact h
      · rw [if_neg h2]
        by_cases hj : j = p.1
        · subst hj
          rw [h] at h2
          simp at h2
        · rw [alookup_dictInsert_ne res _ hj]
          exact h

theorem fill_covers (comp : List String) :
    ∀ (sm : List (String × Step)) (res : List (String × String)) (i : String),
      i ∈ dictKeys sm →
      (∀ j, j ∈ comp → (alookup res j).isSome = true) →
      (∀ j, j ∉ comp →
        (alookup res j = Option.none ∨ alookup res j = Option.some (notExecutedMsg j))) →
      ∃ v, alookup (sm.foldl (fillStep comp) res) i = Option.some v
        ∧ (i ∉ comp → v = notExecutedMsg i) := by
  intro sm
  induction sm with
  | nil => intro res i hi _ _; simp [dictKeys] at hi
  | cons p rest ih =>
    intro res i hi hA hB
    simp only [List.foldl_cons]
    have hA' : ∀ j, j ∈ comp → (alookup (fillStep comp res p) j).isSome = true := by
      intro j hj
      unfold fillStep
      by_cases h1 : p.1 ∈ comp
      · rw [if_pos h1]; exact hA j hj
      · rw [if_neg h1]
        by_cases h2 : (alookup res p.1).isSome = true
        · rw [if_pos h2]; exact hA j hj
        · rw [if_neg h2]
          have hj1 : j ≠ p.1 := fun he => h1 (he ▸ hj)
          rw [alookup_dictInsert_ne res _ hj1]
          exact hA j hj
    have hB' : ∀ j, j ∉ comp →
        (alookup (fillStep comp res p) j = Option.none
          ∨ alookup (fillStep comp res p) j = Option.some (notExecutedMsg j)) := by
      intro j hj
      unfold fillStep
      by_cases h1 : p.1 ∈ comp
      · rw [if_pos h1]; exact hB j hj
      · rw [if_neg h1]
        by_cases h2 : (alookup res p.1).isSome = true
        · rw [if_pos h2]; exact hB j hj
        · rw [if_neg h2]
          by_cases hj1 : j = p.1
          · right
            rw [hj1]
            exact alookup_dictInsert_self res p.1 (notExecutedMsg p.1)
          · rw [alookup_dictInsert_ne res _ hj1]
            exact hB j hj
    have hi2 : i = p.1 ∨ i ∈ dictKeys rest := by
      simp only [dictKeys, List.map_cons, List.mem_cons] at hi
      rcases hi with h | h
      · exact Or.inl h
      · exact Or.inr h
    rcases hi2 with he | hi'
    · subst he
      by_cases h1 : p.1 ∈ comp
      · obtain ⟨v, hv⟩ := Option.isSome_iff_exists.mp (hA' p.1 h1)
        exact ⟨v, fill_preserves comp rest _ p.1 v hv, fun hc => absurd h1 hc⟩
      · have hset : alookup (fillStep comp res p) p.1
            = Option.some (notExecutedMsg p.1) := by
          unfold fillStep
          rw [if_neg h1]
          rcases hB p.1 h1 with hn | hs
          · rw [if_neg (by simp [hn])]
            exact alookup_dictInsert_self res p.1 (notExecutedMsg p.1)
          · rw [if_pos (by simp [hs])]
            exact hs
        exact ⟨notExecutedMsg p.1, fill_preserves comp rest _ p.1 _ hset, fun _ => rfl⟩
    · exact ih (fillStep comp res p) i hi' hA' hB'

/-- C2: for every plan — including plans whose steps depend on ids absent
from the plan — the round loop runs at most `2 × |plan|` rounds, and on
termination every step id occurring in the plan has an entry in the results
map; an id the loop never completed carries exactly the descriptive
not-executed error string rather than being omitted. -/
theorem scheduler_terminates_covering (henv : HandlerEnv) (plan : List Step) :
    (executePlanParallel henv plan).rounds.length ≤ 2 * plan.length
    ∧ ∀ i, i ∈ planIds plan →
        ∃ v, alookup (executePlanParallel henv plan).results i = Option.some v
          ∧ (i ∉ (executePlanParallel henv plan).completed → v = notExecutedMsg i) := by
  have hsm : ∀ q ∈ stepMapOf plan, q.2.id = Option.some q.1 :=
    fun q hq => (stepMapOf_mem hq).1
  have hnd : ((stepMapOf plan).map Prod.fst).Nodup := stepMapOf_keys_nodup plan
  have hkeys := execLoop_keys henv (stepMapOf plan) hsm hnd
    (2 * plan.length) [] [] [] rfl (List.nodup_nil)
  constructor
  · have := execLoop_rounds_le henv (stepMapOf plan) (2 * plan.length) [] [] []
    simpa [executePlanParallel] using this
  · intro i hi
    have hik : i ∈ dictKeys (stepMapOf plan) := planIds_sub_stepMapOf_keys hi
    have := fill_covers
      (execLoop henv (stepMapOf plan) (2 * plan.length) [] [] []).completed
      (stepMapOf plan)
      (execLoop henv (stepMapOf plan) (2 * plan.length) [] [] []).results
      i hik
      (fun j hj => by
        rw [alookup_isSome_iff, hasKey_iff_mem_dictKeys, hkeys.1]
        exact hj)
      (fun j hj => Or.inl (by
        rw [alookup_eq_none_iff]
        by_contra hc
        have hkj : hasKey
            (execLoop henv (stepMapOf plan) (2 * plan.length) [] [] []).results j
              = true := by
          simpa using hc
        exact hj (hkeys.1 ▸ hasKey_iff_mem_dictKeys.mp hkj)))
    exact this

/-- C2 witness: the plan where step `b` depends on the absent id `ghost`
still gets an entry for `b` in the results map. -/
theorem scheduler_terminates_covering_witness :
    "b" ∈ planIds c2Plan
    ∧ (alookup (executePlanParallel okHandlers c2Plan).results "b").isSome = true := by
  have hb : "b" ∈ planIds c2Plan := by simp [planIds, c2Plan]
  obtain ⟨v, hv, _⟩ := (scheduler_terminates_covering okHandlers c2Plan).2 "b" hb
  exact ⟨hb, by rw [hv]; rfl⟩

/-! ## DFS cycle-detection correctness -/

theorem recPath_reaches (g : Graph) :
    ∀ (r : List String) (node x : String), RecPath g r node → x ∈ r →
      Relation.TransGen (graphRel g) x node := by
  intro r
  induction r with
  | nil => intro node x _ hx; cases hx
  | cons c cs ih =>
    intro node x hp hx
    obtain ⟨hedge, hrest⟩ := hp
    rcases List.mem_cons.mp hx with rfl | hx
    · exact Relation.TransGen.single hedge
    · exact (ih c x hrest hx).tail hedge

theorem dfsDeps_true_inversion
    {f : String → List String → List String → Option (Bool × List String)}
    {ds : List String} {v r v' : List String}
    (h : dfsDepsWith f ds v r = Option.some (true, v')) :
    ∃ d ∈ ds, ∃ v₀ v₁, f d v₀ r = Option.some (true, v₁) := by
  induction ds generalizing v with
  | nil => simp [dfsDepsWith] at h
  | cons d ds ih =>
    unfold dfsDepsWith at h
    cases hc : f d v r with
    | none => rw [hc] at h; cases h
    | some bv =>
      obtain ⟨b, v₀⟩ := bv
      cases b with
      | true => exact ⟨d, List.mem_cons_self _ _, v, v₀, hc⟩
      | false =>
        rw [hc] at h
        obtain ⟨d', hd', hrest⟩ := ih h
        exact ⟨d', List.mem_cons_of_mem _ hd', hrest⟩

theorem dfs_true_sound (g : Graph) :
    ∀ (fuel : Nat) (node : String) (v r v' : List String),
      RecPath g r node → dfs g fuel node v r = Option.some (true, v') →
      ∃ a, Relation.TransGen (graphRel g) a a := by
  intro fuel
  induction fuel with
  | zero => intro node v r v' _ h; cases h
  | succ n ih =>
    intro node v r v' hpath h
    unfold dfs at h
    by_cases h1 : node ∈ r
    · exact ⟨node, recPath_reaches g r node node hpath h1⟩
    · rw [if_neg h1] at h
      by_cases h2 : node ∈ v
      · rw [if_pos h2] at h
        simp at h
      · rw [if_neg h2] at h
        obtain ⟨d, hd, v₀, v₁, hcall⟩ := dfsDeps_true_inversion h
        exact ih d v₀ (node :: r) v₁ ⟨hd, hpath⟩ hcall

theorem safe_of_deps {g : Graph} {x : String}
    (h : ∀ d, graphRel g x d → Safe g d) : Safe g x := by
  intro a hreach hcyc
  rcases Relation.ReflTransGen.cases_head hreach with rfl | ⟨b, hxb, hba⟩
  · obtain ⟨b, hxb, hbx⟩ := Relation.TransGen.head'_iff.mp hcyc
    exact h b hxb x hbx hcyc
  · exact h b hxb a hba hcyc

theorem dfsDeps_false_safe (g : Graph) (n : Nat)
    (IH : ∀ (node : String) (v r v' : List String),
      (∀ x ∈ v, x ∉ r → Safe g x) →
      dfs g n node v r = Option.some (false, v') →
      (∀ x ∈ v, x ∈ v') ∧ node ∈ v' ∧ node ∉ r ∧ (∀ x ∈ v', x ∉ r → Safe g x)) :
    ∀ (ds : List String) (v r v' : List String),
      (∀ x ∈ v, x ∉ r → Safe g x) →
      dfsDepsWith (dfs g n) ds v r = Option.some (false, v') →
      (∀ x ∈ v, x ∈ v') ∧ (∀ x ∈ v', x ∉ r → Safe g x)
        ∧ (∀ d ∈ ds, d ∈ v' ∧ d ∉ r) := by
  intro ds
  induction ds with
  | nil =>
    intro v r v' hv h
    unfold dfsDepsWith at h
    have hv' : v = v' := by simpa using h
    subst hv'
    exact ⟨fun x hx => hx, hv, by simp⟩
  | cons d ds ih =>
    intro v r v' hv h
    unfold dfsDepsWith at h
    cases hc : dfs g n d v r with
    | none => rw [hc] at h; cases h
    | some bv =>
      obtain ⟨b, v₀⟩ := bv
      cases b with
      | true => rw [hc] at h; simp at h
      | false =>
        rw [hc] at h
        obtain ⟨hsub, hdv, hdr, hsafe⟩ := IH d v r v₀ hv hc
        obtain ⟨hsub', hsafe', hds⟩ := ih v₀ r v' hsafe h
        refine ⟨fun x hx => hsub' x (hsub x hx), hsafe', ?_⟩
        intro e he
        rcases List.mem_cons.mp he with rfl | he
        · exact ⟨hsub' e hdv, hdr⟩
        · exact hds e he

theorem dfs_false_safe (g : Graph) :
    ∀ (fuel : Nat) (node : String) (v r v' : List String),
      (∀ x ∈ v, x ∉ r → Safe g x) →
      dfs g fuel node v r = Option.some (false, v') →
      (∀ x ∈ v, x ∈ v') ∧ node ∈ v' ∧ node ∉ r ∧ (∀ x ∈ v', x ∉ r → Safe g x) := by
  intro fuel
  induction fuel with
  | zero => intro node v r v' _ h; cases h
  | succ n ih =>
    intro node v r v' hv h
    unfold dfs at h
    by_cases h1 : node ∈ r
    · rw [if_pos h1] at h
      simp at h
    · rw [if_neg h1] at h
      by_cases h2 : node ∈ v
      · rw [if_pos h2] at h
        have hv' : v = v' := by simpa using h
        subst hv'
        exact ⟨fun x hx => hx, h2, h1, hv⟩
      · rw [if_neg h2] at h
        have hv₁ : ∀ x ∈ v ++ [node], x ∉ (node :: r) → Safe g x := by
          intro x hx hxr
          rcases List.mem_append.mp hx with hx | hx
          · exact hv x hx (fun hc => hxr (List.mem_cons_of_mem _ hc))
          · rcases List.mem_singleton.mp hx with rfl
            exact absurd (List.mem_cons_self _ _) hxr
        obtain ⟨hsub, hsafe, hds⟩ :=
          dfsDeps_false_safe g n ih (graphLookup g node) (v ++ [node]) (node :: r) v' hv₁ h
        have hnodev' : node ∈ v' := hsub node (by simp)
        have hsafeNode : Safe g node := by
          refine safe_of_deps ?_
          intro d hd
          obtain ⟨hdv', hdr⟩ := hds d hd
          exact hsafe d hdv' hdr
        refine ⟨fun x hx => hsub x (by simp [hx]), hnodev', h1, ?_⟩
        intro x hx hxr
        by_cases hxn : x = node
        · exact hxn ▸ hsafeNode
        · exact hsafe x hx (by
            intro hc
            rcases List.mem_cons.mp hc with rfl | hc
            · exact hxn rfl
            · exact hxr hc)

theorem dfsAll_false_safe (g : Graph) (fuel : Nat) :
    ∀ (ks v : List String), (∀ x ∈ v, Safe g x) →
      dfsAll g fuel ks v = Option.some false → ∀ k ∈ ks, Safe g k := by
  intro ks
  induction ks with
  | nil => intro v _ _ k hk; cases hk
  | cons k ks ih =>
    intro v hv h k' hk'
    unfold dfsAll at h
    by_cases h1 : k ∈ v
    · rw [if_pos h1] at h
      rcases List.mem_cons.mp hk' with rfl | hk'
      · exact hv k' h1
      · exact ih v hv h k' hk'
    · rw [if_neg h1] at h
      cases hc : dfs g fuel k v [] with
      | none => rw [hc] at h; cases h
      | some bv =>
        obtain ⟨b, v₀⟩ := bv
        cases b with
        | true => rw [hc] at h; simp at h
        | false =>
          rw [hc] at h
          obtain ⟨hsub, hkv, _, hsafe⟩ :=
            dfs_false_safe g fuel k v [] v₀ (fun x hx _ => hv x hx) hc
          have hv₀ : ∀ x ∈ v₀, Safe g x := fun x hx => hsafe x hx (by simp)
          rcases List.mem_cons.mp hk' with rfl | hk'
          · exact hv₀ k' hkv
          · exact ih v₀ hv₀ h k' hk'

theorem dfsAll_true_cycle (g : Graph) (fuel : Nat) :
    ∀ (ks v : List String), dfsAll g fuel ks v = Option.some true →
      ∃ a, Relation.TransGen (graphRel g) a a := by
  intro ks
  induction ks with
  | nil => intro v h; simp [dfsAll] at h
  | cons k ks ih =>
    intro v h
    unfold dfsAll at h
    by_cases h1 : k ∈ v
    · rw [if_pos h1] at h
      exact ih v h
    · rw [if_neg h1] at h
      cases hc : dfs g fuel k v [] with
      | none => rw [hc] at h; cases h
      | some bv =>
        obtain ⟨b, v₀⟩ := bv
        cases b with
        | true => exact dfs_true_sound g fuel k v [] v₀ trivial hc
        | false =>
          rw [hc] at h
          exact ih v₀ h

theorem dfsDeps_mono
    {f : String → List String → List String → Option (Bool × List String)}
    (hf : ∀ (node : String) (v r : List String) (b : Bool) (v' : List String),
      f node v r = Option.some (b, v') → ∀ x ∈ v, x ∈ v') :
    ∀ (ds : List String) (v r : List String) (b : Bool) (v' : List String),
      dfsDepsWith f ds v r = Option.some (b, v') → ∀ x ∈ v, x ∈ v' := by
  intro ds
  induction ds with
  | nil =>
    intro v r b v' h x hx
    unfold dfsDepsWith at h
    injection h with h1
    injection h1 with hb hv
    subst hv
    exact hx
  | cons d ds ih =>
    intro v r b v' h x hx
    unfold dfsDepsWith at h
    cases hc : f d v r with
    | none => rw [hc] at h; cases h
    | some bv =>
      obtain ⟨b₀, v₀⟩ := bv
      cases b₀ with
      | true =>
        rw [hc] at h
        injection h with h1
        injection h1 with hb hv
        subst hv
        exact hf d v r true v₀ hc x hx
      | false =>
        rw [hc] at h
        exact ih v₀ r b v' h x (hf d v r false v₀ hc x hx)

theorem dfs_mono (g : Graph) :
    ∀ (fuel : Nat) (node : String) (v r : List String) (b : Bool)
      (v' : List String),
      dfs g fuel node v r = Option.some (b, v') → ∀ x ∈ v, x ∈ v' := by
  intro fuel
  induction fuel with
  | zero => intro node v r b v' h; cases h
  | succ n ih =>
    intro node v r b v' h x hx
    unfold dfs at h
    by_cases h1 : node ∈ r
    · rw [if_pos h1] at h
      injection h with h1'
      injection h1' with hb hv
      subst hv
      exact hx
    · rw [if_neg h1] at h
      by_cases h2 : node ∈ v
      · rw [if_pos h2] at h
        injection h with h2'
        injection h2' with hb hv
        subst hv
        exact hx
      · rw [if_neg h2] at h
        exact dfsDeps_mono (fun n' v'' r'' b'' v''' hc => ih n' v'' r'' b'' v''' hc)
          (graphLookup g node) (v ++ [node]) (node :: r) b v' h x (by simp [hx])

theorem graphLookup_sub_universe {g : Graph} {n d : String}
    (h : d ∈ graphLookup g n) : d ∈ graphUniverse g := by
  unfold graphLookup at h
  cases hl : alookup g n with
  | none => rw [hl] at h; cases h
  | some ds =>
    rw [hl] at h
    have : (n, ds) ∈ g := alookup_mem hl
    refine List.mem_append.mpr (Or.inr ?_)
    refine List.mem_flatten.mpr ⟨ds, ?_, h⟩
    exact List.mem_map.mpr ⟨(n, ds), this, rfl⟩

theorem unvisited_count_lt {g : Graph} {v : List String} {node : String}
    (hnode : node ∈ graphUniverse g) (hnv : node ∉ v) :
    ((graphUniverse g).filter (fun x => decide (x ∉ v ++ [node]))).length
      < ((graphUniverse g).filter (fun x => decide (x ∉ v))).length := by
  have hsub : ((graphUniverse g).filter (fun x => decide (x ∉ v ++ [node]))).Sublist
      ((graphUniverse g).filter (fun x => decide (x ∉ v))) := by
    refine List.monotone_filter_right _ ?_
    intro a ha
    have h1 : a ∉ v ++ [node] := of_decide_eq_true ha
    exact decide_eq_true (fun hc => h1 (List.mem_append.mpr (Or.inl hc)))
  refine lt_of_le_of_ne hsub.length_le ?_
  intro heq
  have := hsub.eq_of_length heq
  have hmem : node ∈ (graphUniverse g).filter (fun x => decide (x ∉ v)) :=
    List.mem_filter.mpr ⟨hnode, decide_eq_true hnv⟩
  rw [← this] at hmem
  have := List.mem_filter.mp hmem
  exact (of_decide_eq_true this.2) (by simp)

theorem unvisited_count_le {g : Graph} {v v' : List String}
    (h : ∀ x ∈ v, x ∈ v') :
    ((graphUniverse g).filter (fun x => decide (x ∉ v'))).length
      ≤ ((graphUniverse g).filter (fun x => decide (x ∉ v))).length := by
  refine List.Sublist.length_le ?_
  refine List.monotone_filter_right _ ?_
  intro a ha
  have h1 : a ∉ v' := of_decide_eq_true ha
  exact decide_eq_true (fun hc => h1 (h a hc))

theorem dfsDeps_no_fuel (g : Graph) (n : Nat)
    (IH : ∀ (node : String) (v r : List String), node ∈ graphUniverse g →
      ((graphUniverse g).filter (fun x => decide (x ∉ v))).length < n →
      dfs g n node v r ≠ Option.none) :
    ∀ (ds : List String) (v r : List String),
      (∀ d ∈ ds, d ∈ graphUniverse g) →
      ((graphUniverse g).filter (fun x => decide (x ∉ v))).length < n →
      dfsDepsWith (dfs g n) ds v r ≠ Option.none := by
  intro ds
  induction ds with
  | nil => intro v r _ _; unfold dfsDepsWith; simp
  | cons d ds ih =>
    intro v r hds hcount
    unfold dfsDepsWith
    cases hc : dfs g n d v r with
    | none => exact absurd hc (IH d v r (hds d (List.mem_cons_self _ _)) hcount)
    | some bv =>
      obtain ⟨b, v₀⟩ := bv
      cases b with
      | true => simp
      | false =>
        have hmono : ∀ x ∈ v, x ∈ v₀ := dfs_mono g n d v r false v₀ hc
        exact ih v₀ r (fun e he => hds e (List.mem_cons_of_mem _ he))
          (lt_of_le_of_lt (unvisited_count_le hmono) hcount)

theorem dfs_no_fuel (g : Graph) :
    ∀ (fuel : Nat) (node : String) (v r : List String),
      node ∈ graphUniverse g →
      ((graphUniverse g).filter (fun x => decide (x ∉ v))).length < fuel →
      dfs g fuel node v r ≠ Option.none := by
  intro fuel
  induction fuel with
  | zero => intro node v r _ hcount; omega
  | succ n ih =>
    intro node v r hnode hcount
    unfold dfs
    by_cases h1 : node ∈ r
    · rw [if_pos h1]; simp
    · rw [if_neg h1]
      by_cases h2 : node ∈ v
      · rw [if_pos h2]; simp
      · rw [if_neg h2]
        refine dfsDeps_no_fuel g n ih (graphLookup g node) (v ++ [node]) (node :: r)
          (fun d hd => graphLookup_sub_universe hd) ?_
        have hlt := unvisited_count_lt hnode h2
        omega

theorem dfsAll_no_fuel (g : Graph) (fuel : Nat) :
    ∀ (ks v : List String), (∀ k ∈ ks, k ∈ graphUniverse g) →
      ((graphUniverse g).filter (fun x => decide (x ∉ v))).length < fuel →
      dfsAll g fuel ks v ≠ Option.none := by
  intro ks
  induction ks with
  | nil => intro v _ _; unfold dfsAll; simp
  | cons k ks ih =>
    intro v hks hcount
    unfold dfsAll
    by_cases h1 : k ∈ v
    · rw [if_pos h1]
      exact ih v (fun e he => hks e (List.mem_cons_of_mem _ he)) hcount
    · rw [if_neg h1]
      cases hc : dfs g fuel k v [] with
      | none =>
        exact absurd hc (dfs_no_fuel g fuel k v []
          (hks k (List.mem_cons_self _ _)) hcount)
      | some bv =>
        obtain ⟨b, v₀⟩ := bv
        cases b with
        | true => simp
        | false =>
          have hmono : ∀ x ∈ v, x ∈ v₀ := dfs_mono g fuel k v [] false v₀ hc
          exact ih v₀ (fun e he => hks e (List.mem_cons_of_mem _ he))
            (lt_of_le_of_lt (unvisited_count_le hmono) hcount)

/-! ## Dependency-existence check lemmas -/

theorem checkDeps_ok (ids : List String) :
    ∀ (l : List Step) (g g' : Graph), checkDeps l ids g = .ok g' →
      (∀ s ∈ l, ∀ i, s.id = Option.some i → i ≠ "" → ∀ d ∈ depsOf s, d ∈ ids)
      ∧ g' = l.foldl (fun g s =>
          match s.id with
          | Option.some i => if i = "" then g else dictInsert g i (depsOf s)
          | Option.none => g) g := by
  intro l
  induction l with
  | nil =>
    intro g g' h
    unfold checkDeps at h
    injection h with h1
    exact ⟨fun s hs => absurd hs (List.not_mem_nil s), h1.symm⟩
  | cons s rest ih =>
    intro g g' h
    unfold checkDeps at h
    cases hid : s.id with
    | none =>
      rw [hid] at h
      dsimp only at h
      obtain ⟨hdef, hg⟩ := ih g g' h
      refine ⟨?_, by simpa [List.foldl_cons, hid] using hg⟩
      intro s' hs' i' hi' hie' d hd
      rcases List.mem_cons.mp hs' with rfl | hs'
      · rw [hid] at hi'; cases hi'
      · exact hdef s' hs' i' hi' hie' d hd
    | some i =>
      rw [hid] at h
      dsimp only at h
      by_cases hie : i = ""
      · rw [if_pos hie] at h
        obtain ⟨hdef, hg⟩ := ih g g' h
        refine ⟨?_, by simpa [List.foldl_cons, hid, hie] using hg⟩
        intro s' hs' i' hi' hie' d hd
        rcases List.mem_cons.mp hs' with rfl | hs'
        · rw [hid] at hi'
          injection hi' with he
          exact absurd (he ▸ hie) hie'
        · exact hdef s' hs' i' hi' hie' d hd
      · rw [if_neg hie] at h
        cases hf : (depsOf s).find? (fun d => decide (d ∉ ids)) with
        | some d => rw [hf] at h; cases h
        | none =>
          rw [hf] at h
          dsimp only at h
          obtain ⟨hdef, hg⟩ := ih (dictInsert g i (depsOf s)) g' h
          refine ⟨?_, by simpa [List.foldl_cons, hid, hie] using hg⟩
          intro s' hs' i' hi' hie' d hd
          rcases List.mem_cons.mp hs' with rfl | hs'
          · have hnone := List.find?_eq_none.mp hf d hd
            simpa using hnone
          · exact hdef s' hs' i' hi' hie' d hd

theorem checkDeps_complete (ids : List String) :
    ∀ (l : List Step) (g : Graph),
      (∀ s ∈ l, ∀ i, s.id = Option.some i → i ≠ "" → ∀ d ∈ depsOf s, d ∈ ids) →
      checkDeps l ids g = .ok (l.foldl (fun g s =>
          match s.id with
          | Option.some i => if i = "" then g else dictInsert g i (depsOf s)
          | Option.none => g) g) := by
  intro l
  induction l with
  | nil => intro g _; rfl
  | cons s rest ih =>
    intro g hdef
    unfold checkDeps
    cases hid : s.id with
    | none =>
      dsimp only
      simp only [List.foldl_cons, hid]
      exact ih g (fun s' hs' => hdef s' (List.mem_cons_of_mem _ hs'))
    | some i =>
      dsimp only
      by_cases hie : i = ""
      · rw [if_pos hie]
        simp only [List.foldl_cons, hid, if_pos hie]
        exact ih g (fun s' hs' => hdef s' (List.mem_cons_of_mem _ hs'))
      · rw [if_neg hie]
        cases hf : (depsOf s).find? (fun d => decide (d ∉ ids)) with
        | some d =>
          have hp := List.find?_some hf
          have hmem := List.mem_of_find?_eq_some hf
          have := hdef s (List.mem_cons_self _ _) i hid hie d hmem
          exact absurd this (of_decide_eq_true hp)
        | none =>
          simp only [List.foldl_cons, hid, if_neg hie]
          exact ih (dictInsert g i (depsOf s))
            (fun s' hs' => hdef s' (List.mem_cons_of_mem _ hs'))

theorem checkDeps_error (ids : List String) :
    ∀ (l : List Step) (g : Graph) (d sid : String),
      checkDeps l ids g = .error (d, sid) →
      ∃ s ∈ l, s.id = Option.some sid ∧ sid ≠ "" ∧ d ∈ depsOf s ∧ d ∉ ids := by
  intro l
  induction l with
  | nil => intro g d sid h; cases h
  | cons s rest ih =>
    intro g d sid h
    unfold checkDeps at h
    cases hid : s.id with
    | none =>
      rw [hid] at h
      dsimp only at h
      obtain ⟨s', hs', hrest⟩ := ih g d sid h
      exact ⟨s', List.mem_cons_of_mem _ hs', hrest⟩
    | some i =>
      rw [hid] at h
      dsimp only at h
      by_cases hie : i = ""
      · rw [if_pos hie] at h
        obtain ⟨s', hs', hrest⟩ := ih g d sid h
        exact ⟨s', List.mem_cons_of_mem _ hs', hrest⟩
      · rw [if_neg hie] at h
        cases hf : (depsOf s).find? (fun e => decide (e ∉ ids)) with
        | some d₀ =>
          rw [hf] at h
          dsimp only at h
          injection h with h1
          injection h1 with hd hsid
          subst hd
          subst hsid
          have hni : d₀ ∉ ids := by simpa using List.find?_some hf
          have hm : d₀ ∈ depsOf s := List.mem_of_find?_eq_some hf
          exact ⟨s, List.mem_cons_self _ _, hid, hie, hm, hni⟩
        | none =>
          rw [hf] at h
          dsimp only at h
          obtain ⟨s', hs', hrest⟩ := ih (dictInsert g i (depsOf s)) d sid h
          exact ⟨s', List.mem_cons_of_mem _ hs', hrest⟩

theorem graphRel_key {g : Graph} {a b : String} (h : graphRel g a b) :
    a ∈ dictKeys g := by
  unfold graphRel graphLookup at h
  cases hl : alookup g a with
  | none => rw [hl] at h; cases h
  | some ds =>
    exact List.mem_map.mpr ⟨(a, ds), alookup_mem hl, rfl⟩

theorem dictKeys_sub_universe {g : Graph} {k : String} (h : k ∈ dictKeys g) :
    k ∈ graphUniverse g := List.mem_append.mpr (Or.inl h)

theorem initial_count_lt (g : Graph) :
    ((graphUniverse g).filter (fun x => decide (x ∉ ([] : List String)))).length
      < (graphUniverse g).length + 1 := by
  have : ((graphUniverse g).filter (fun x => decide (x ∉ ([] : List String))))
      = graphUniverse g := by
    refine List.filter_eq_self.mpr ?_
    intro a _
    simp
  rw [this]
  omega

/-- C4 (amended): `_validate_plan` returns `True` exactly for plans in which
every step with a truthy id has all its dependency ids among the plan's ids
and the dependency graph it builds over the truthy-id steps (a later
duplicate id overriding an earlier one) is acyclic; steps with a missing or
empty id have their dependencies ignored.  On a missing dependency it fails
and logs one message naming the offending dependency id and its step id; on
a cycle it fails logging only the fixed generic cycle message, which names no
participant ids. -/
theorem validatePlan_characterization (plan : List Step) :
    ((validatePlan plan).1 = true ↔
      truthyDepsDefined plan ∧ Acyclic (graphRel (buildGraph plan)))
    ∧ (¬ truthyDepsDefined plan →
        ∃ d sid s, s ∈ plan ∧ s.id = Option.some sid ∧ sid ≠ ""
          ∧ d ∈ depsOf s ∧ d ∉ planIds plan
          ∧ (validatePlan plan).2 = [missingDepMsg d sid])
    ∧ (truthyDepsDefined plan → ¬ Acyclic (graphRel (buildGraph plan)) →
        (validatePlan plan).2 = [cycleMsg]) := by
  have hkeysU : ∀ k ∈ dictKeys (buildGraph plan), k ∈ graphUniverse (buildGraph plan) :=
    fun k hk => dictKeys_sub_universe hk
  have hfold : buildGraph plan = plan.foldl (fun g s =>
      match s.id with
      | Option.some i => if i = "" then g else dictInsert g i (depsOf s)
      | Option.none => g) (graphInit plan) := rfl
  have hsafe_imp_acyclic :
      dfsAll (buildGraph plan) ((graphUniverse (buildGraph plan)).length + 1)
          (dictKeys (buildGraph plan)) [] = Option.some false →
        Acyclic (graphRel (buildGraph plan)) := by
    intro hall a hcyc
    obtain ⟨b, hab, hba⟩ := Relation.TransGen.head'_iff.mp hcyc
    have hak : a ∈ dictKeys (buildGraph plan) := graphRel_key hab
    have hsafe := dfsAll_false_safe (buildGraph plan) _ (dictKeys (buildGraph plan))
      [] (by intro x hx; cases hx) hall a hak
    exact hsafe a Relation.ReflTransGen.refl hcyc
  refine ⟨⟨?_, ?_⟩, ?_, ?_⟩
  · -- validator true → defined ∧ acyclic
    intro htrue
    cases hcd : checkDeps plan (planIds plan) (graphInit plan) with
    | error di =>
      have : validatePlan plan = (false, [missingDepMsg di.1 di.2]) := by
        simp only [validatePlan, hcd]
      rw [this] at htrue
      cases htrue
    | ok g =>
      obtain ⟨hdef, hg⟩ := checkDeps_ok (planIds plan) plan (graphInit plan) g hcd
      have hgb : g = buildGraph plan := by rw [hfold]; exact hg
      rw [hgb] at hcd
      cases hall : dfsAll (buildGraph plan)
          ((graphUniverse (buildGraph plan)).length + 1)
          (dictKeys (buildGraph plan)) [] with
      | none =>
        have : validatePlan plan = (false, []) := by
          simp only [validatePlan, hcd, hall]
        rw [this] at htrue
        cases htrue
      | some b =>
        cases b with
        | true =>
          have : validatePlan plan = (false, [cycleMsg]) := by
            simp only [validatePlan, hcd, hall]
          rw [this] at htrue
          cases htrue
        | false => exact ⟨hdef, hsafe_imp_acyclic hall⟩
  · -- defined ∧ acyclic → validator true
    rintro ⟨hdef, hacyc⟩
    have hcd := checkDeps_complete (planIds plan) plan (graphInit plan) hdef
    rw [← hfold] at hcd
    cases hall : dfsAll (buildGraph plan) ((graphUniverse (buildGraph plan)).length + 1)
        (dictKeys (buildGraph plan)) [] with
    | none =>
      exact absurd hall (dfsAll_no_fuel (buildGraph plan) _ (dictKeys (buildGraph plan))
        [] hkeysU (initial_count_lt (buildGraph plan)))
    | some b =>
      cases b with
      | true =>
        obtain ⟨a, ha⟩ := dfsAll_true_cycle (buildGraph plan) _ _ _ hall
        exact absurd ha (hacyc a)
      | false =>
        have : validatePlan plan = (true, []) := by
          simp only [validatePlan, hcd, hall]
        rw [this]
  · -- missing dependency: the log names the offending ids
    intro hndef
    cases hcd : checkDeps plan (planIds plan) (graphInit plan) with
    | ok g =>
      obtain ⟨hdef, _⟩ := checkDeps_ok (planIds plan) plan (graphInit plan) g hcd
      exact absurd hdef hndef
    | error di =>
      obtain ⟨s, hs, hid, hie, hd, hnd⟩ :=
        checkDeps_error (planIds plan) plan (graphInit plan) di.1 di.2
          (by rw [hcd])
      refine ⟨di.1, di.2, s, hs, hid, hie, hd, hnd, ?_⟩
      simp only [validatePlan, hcd]
  · -- cycle: only the generic message is logged
    intro hdef hnacyc
    have hcd := checkDeps_complete (planIds plan) plan (graphInit plan) hdef
    rw [← hfold] at hcd
    cases hall : dfsAll (buildGraph plan) ((graphUniverse (buildGraph plan)).length + 1)
        (dictKeys (buildGraph plan)) [] with
    | none =>
      exact absurd hall (dfsAll_no_fuel (buildGraph plan) _ (dictKeys (buildGraph plan))
        [] hkeysU (initial_count_lt (buildGraph plan)))
    | some b =>
      cases b with
      | true =>
        have : validatePlan plan = (false, [cycleMsg]) := by
          simp only [validatePlan, hcd, hall]
        rw [this]
      | false => exact absurd (hsafe_imp_acyclic hall) hnacyc

/-- C4 counterexample: on the two-step cycle `stepA ↔ stepB` the validator
fails with only the generic cycle message, which names neither participant
id; and a plan whose only step has the falsy id `""` and a dependency on the
absent id `ghost` passes validation, so failure is not guaranteed for every
plan with an undefined dependency. -/
theorem validator_report_counterexample :
    validatePlan c4CycPlan = (false, [cycleMsg])
    ∧ strContains cycleMsg "stepA" = false
    ∧ strContains cycleMsg "stepB" = false
    ∧ (validatePlan c4GhostPlan).1 = true := by
  refine ⟨?_, ?_, ?_, ?_⟩ <;> decide

/-! ## DAG scheduler causal ordering (C1) -/

theorem filter_not_mem_sublist (U v w : List String) (h : ∀ x ∈ v, x ∈ w) :
    (U.filter (fun x => decide (x ∉ w))).Sublist
      (U.filter (fun x => decide (x ∉ v))) := by
  refine List.monotone_filter_right _ ?_
  intro a ha
  have h1 : a ∉ w := of_decide_eq_true ha
  exact decide_eq_true (fun hc => h1 (h a hc))

theorem filter_not_mem_lt (U v w : List String) (hvw : ∀ x ∈ v, x ∈ w)
    (a : String) (haU : a ∈ U) (hav : a ∉ v) (haw : a ∈ w) :
    (U.filter (fun x => decide (x ∉ w))).length
      < (U.filter (fun x => decide (x ∉ v))).length := by
  have hsub := filter_not_mem_sublist U v w hvw
  refine lt_of_le_of_ne hsub.length_le ?_
  intro heq
  have hEq := hsub.eq_of_length heq
  have ha1 : a ∈ U.filter (fun x => decide (x ∉ v)) :=
    List.mem_filter.mpr ⟨haU, decide_eq_true hav⟩
  rw [← hEq] at ha1
  exact (of_decide_eq_true (List.mem_filter.mp ha1).2) haw

theorem dictInsert_length_le {α : Type} (m : List (String × α)) (k : String)
    (v : α) : (dictInsert m k v).length ≤ m.length + 1 := by
  induction m with
  | nil => simp [dictInsert]
  | cons p rest ih =>
    obtain ⟨k', v'⟩ := p
    simp only [dictInsert]
    by_cases hk : k' = k
    · rw [if_pos hk]
      simp
    · rw [if_neg hk]
      simp only [List.length_cons]
      omega

theorem stepMapOf_length_le (plan : List Step) :
    (stepMapOf plan).length ≤ plan.length := by
  have main : ∀ (l : List Step) (m : List (String × Step)),
      (l.foldl (fun m s =>
        match s.id with
        | Option.some i => dictInsert m i s
        | Option.none => m) m).length ≤ m.length + l.length := by
    intro l
    induction l with
    | nil => intro m; simp
    | cons s rest ih =>
      intro m
      simp only [List.foldl_cons]
      cases hs : s.id with
      | none =>
        refine le_trans (ih m) ?_
        simp only [List.length_cons]
        omega
      | some i =>
        refine le_trans (ih (dictInsert m i s)) ?_
        have := dictInsert_length_le m i s
        simp only [List.length_cons]
        omega
  have := main plan []
  simpa [stepMapOf] using this

theorem fill_noop (comp : List String) :
    ∀ (sm : List (String × Step)) (res : List (String × String)),
      (∀ p ∈ sm, p.1 ∈ comp) →
      sm.foldl (fillStep comp) res = res := by
  intro sm
  induction sm with
  | nil => intro res _; rfl
  | cons p rest ih =>
    intro res h
    simp only [List.foldl_cons]
    have h1 : fillStep comp res p = res := by
      unfold fillStep
      rw [if_pos (h p (List.mem_cons_self _ _))]
    rw [h1]
    exact ih res (fun x hx => h x (List.mem_cons_of_mem _ hx))

theorem acyclic_of_rank {σ : Type} (r : σ → σ → Prop) (f : σ → Nat)
    (h : ∀ a b, r a b → f b < f a) : Acyclic r := by
  intro a hcyc
  have hlt : ∀ x y, Relation.TransGen r x y → f y < f x := by
    intro x y hxy
    induction hxy with
    | single h1 => exact h _ _ h1
    | tail _ h2 ih => exact lt_trans (h _ _ h2) ih
  exact lt_irrefl _ (hlt a a hcyc)

theorem execLoop_spec (henv : HandlerEnv) (sm : List (String × Step))
    (hsm : ∀ q ∈ sm, q.2.id = Option.some q.1)
    (hnd : (sm.map Prod.fst).Nodup) :
    ∀ (fuel : Nat) (res : List (String × String)) (comp : List String)
      (tr : List (List String)),
      dictKeys res = comp →
      ∃ rds : List (List String),
        (execLoop henv sm fuel res comp tr).rounds = tr.reverse ++ rds
        ∧ (execLoop henv sm fuel res comp tr).completed = comp ++ rds.flatten
        ∧ dictKeys (execLoop henv sm fuel res comp tr).results
            = comp ++ rds.flatten
        ∧ ∀ k ids, rds.get? k = Option.some ids →
            ids = (readyOf sm (comp ++ (rds.take k).flatten)).map Prod.fst := by
  intro fuel
  induction fuel with
  | zero =>
    intro res comp tr h1
    refine ⟨[], by simp [execLoop], by simp [execLoop], by simp [execLoop, h1],
      ?_⟩
    intro k ids hk
    simp at hk
  | succ n ih =>
    intro res comp tr h1
    by_cases hc : comp.length < sm.length
    · cases hr : readyOf sm comp with
      | nil =>
        have hred : execLoop henv sm (n + 1) res comp tr
            = ExecOut.mk res comp tr.reverse := by
          unfold execLoop
          rw [if_pos hc, hr]
        rw [hred]
        refine ⟨[], by simp, by simp, by simp [h1], ?_⟩
        intro k ids hk
        simp at hk
      | cons p ps =>
        have hspec := roundFold_spec henv (p :: ps) res comp h1
          (fun q hq => hsm q ((readyOf_mem (hr ▸ hq)).1))
          (by
            have := readyOf_keys_sublist sm comp
            rw [hr] at this
            exact this.nodup hnd)
          (fun q hq => (readyOf_mem (hr ▸ hq)).2.1)
        have hred : execLoop henv sm (n + 1) res comp tr
            = execLoop henv sm n ((p :: ps).foldl (roundFold henv) (res, comp)).1
                ((p :: ps).foldl (roundFold henv) (res, comp)).2
                (((p :: ps).map Prod.fst) :: tr) := by
          conv_lhs => unfold execLoop
          rw [if_pos hc, hr]
        rw [hred]
        obtain ⟨rds', ha, hb, hk2, hcond⟩ := ih
          ((p :: ps).foldl (roundFold henv) (res, comp)).1
          ((p :: ps).foldl (roundFold henv) (res, comp)).2
          (((p :: ps).map Prod.fst) :: tr)
          (by rw [hspec.2, hspec.1])
        refine ⟨((p :: ps).map Prod.fst) :: rds', ?_, ?_, ?_, ?_⟩
        · rw [ha]
          simp
        · rw [hb, hspec.1]
          simp
        · rw [hk2, hspec.1]
          simp
        · intro k ids hk
          cases k with
          | zero =>
            rw [List.get?_cons_zero] at hk
            injection hk with hk
            subst hk
            simp only [List.take_zero, List.flatten_nil, List.append_nil]
            rw [hr]
          | succ k =>
            rw [List.get?_cons_succ] at hk
            have h5 := hcond k ids hk
            rw [hspec.1] at h5
            rw [h5]
            simp [List.take_succ_cons, List.flatten_cons, List.append_assoc]
    · have hred : execLoop henv sm (n + 1) res comp tr
          = ExecOut.mk res comp tr.reverse := by
        unfold execLoop
        rw [if_neg hc]
      rw [hred]
      refine ⟨[], by simp, by simp, by simp [h1], ?_⟩
      intro k ids hk
      simp at hk

theorem readyOf_progress (plan : List Step)
    (hdef : ∀ s ∈ plan, ∀ d ∈ depsOf s, d ∈ planIds plan)
    (hacyc : Acyclic (planDepRel plan)) (comp : List String)
    (q0 : String × Step) (hq0 : q0 ∈ stepMapOf plan) (hq0c : q0.1 ∉ comp) :
    readyOf (stepMapOf plan) comp ≠ [] := by
  intro hempty
  have hstuck : ∀ q : String × Step, q ∈ stepMapOf plan → q.1 ∉ comp →
      ∃ q' : String × Step, q' ∈ stepMapOf plan ∧ q'.1 ∉ comp
        ∧ planDepRel plan q.1 q'.1 := by
    intro q hq hqc
    have hdep : ∃ d ∈ depsOf q.2, d ∉ comp := by
      by_contra hcon
      push_neg at hcon
      have hqready : q ∈ readyOf (stepMapOf plan) comp := by
        refine List.mem_filter.mpr ⟨hq, ?_⟩
        rw [Bool.and_eq_true]
        exact ⟨decide_eq_true hqc, decide_eq_true hcon⟩
      rw [hempty] at hqready
      exact absurd hqready (List.not_mem_nil q)
    obtain ⟨d, hd, hdc⟩ := hdep
    obtain ⟨hqid, hqplan⟩ := stepMapOf_mem hq
    have hdk : d ∈ dictKeys (stepMapOf plan) :=
      planIds_sub_stepMapOf_keys (hdef q.2 hqplan d hd)
    rcases List.mem_map.mp hdk with ⟨q', hq', hq'd⟩
    refine ⟨q', hq', ?_, ?_⟩
    · rw [hq'd]
      exact hdc
    · refine ⟨q.2, hqplan, hqid, ?_⟩
      rw [hq'd]
      exact hd
  choose f hf1 hf2 hf3 using hstuck
  let T := {q : String × Step // q ∈ stepMapOf plan ∧ q.1 ∉ comp}
  let next : T → T :=
    fun t => ⟨f t.1 t.2.1 t.2.2, hf1 t.1 t.2.1 t.2.2, hf2 t.1 t.2.1 t.2.2⟩
  let seq : Nat → T := fun n => next^[n] ⟨q0, hq0, hq0c⟩
  have hchain : ∀ n, planDepRel plan ((seq n).1.1) ((seq (n + 1)).1.1) := by
    intro n
    have hs : seq (n + 1) = next (seq n) :=
      Function.iterate_succ_apply' next n ⟨q0, hq0, hq0c⟩
    rw [hs]
    exact hf3 (seq n).1 (seq n).2.1 (seq n).2.2
  have hchain' : ∀ m k : Nat, m < k →
      Relation.TransGen (planDepRel plan) ((seq m).1.1) ((seq k).1.1) := by
    intro m k hmk
    induction hmk with
    | refl => exact Relation.TransGen.single (hchain m)
    | step _ ihs => exact ihs.tail (hchain _)
  have hmaps : ∀ n : Fin ((dictKeys (stepMapOf plan)).length + 1),
      ((seq n.1).1.1) ∈ (dictKeys (stepMapOf plan)).toFinset := by
    intro n
    rw [List.mem_toFinset]
    exact List.mem_map.mpr ⟨(seq n.1).1, (seq n.1).2.1, rfl⟩
  have hcard : (dictKeys (stepMapOf plan)).toFinset.card
      < (Finset.univ :
          Finset (Fin ((dictKeys (stepMapOf plan)).length + 1))).card := by
    rw [Finset.card_univ, Fintype.card_fin]
    exact Nat.lt_succ_of_le (List.toFinset_card_le _)
  obtain ⟨a, _, b, _, hab, heq⟩ :=
    Finset.exists_ne_map_eq_of_card_lt_of_maps_to hcard (fun n _ => hmaps n)
  have heq' : (seq a.1).1.1 = (seq b.1).1.1 := heq
  rcases hab.lt_or_lt with hlt | hlt
  · have hv : a.1 < b.1 := hlt
    have := hchain' a.1 b.1 hv
    rw [heq'] at this
    exact hacyc _ this
  · have hv : b.1 < a.1 := hlt
    have := hchain' b.1 a.1 hv
    rw [← heq'] at this
    exact hacyc _ this

theorem execLoop_completes (henv : HandlerEnv) (plan : List Step)
    (hdef : ∀ s ∈ plan, ∀ d ∈ depsOf s, d ∈ planIds plan)
    (hacyc : Acyclic (planDepRel plan)) :
    ∀ (fuel : Nat) (res : List (String × String)) (comp : List String)
      (tr : List (List String)),
      dictKeys res = comp → comp.Nodup →
      (∀ c ∈ comp, c ∈ dictKeys (stepMapOf plan)) →
      ((dictKeys (stepMapOf plan)).filter
          (fun x => decide (x ∉ comp))).length ≤ fuel →
      ∀ q ∈ stepMapOf plan,
        q.1 ∈ (execLoop henv (stepMapOf plan) fuel res comp tr).completed := by
  have hsm : ∀ q ∈ stepMapOf plan, q.2.id = Option.some q.1 :=
    fun q hq => (stepMapOf_mem hq).1
  have hnd : ((stepMapOf plan).map Prod.fst).Nodup := stepMapOf_keys_nodup plan
  intro fuel
  induction fuel with
  | zero =>
    intro res comp tr h1 h2 h3 hcount q hq
    have hin : q.1 ∈ comp := by
      by_contra hqc
      have hmem : q.1 ∈ (dictKeys (stepMapOf plan)).filter
          (fun x => decide (x ∉ comp)) :=
        List.mem_filter.mpr
          ⟨List.mem_map.mpr ⟨q, hq, rfl⟩, decide_eq_true hqc⟩
      rw [List.length_eq_zero.mp (Nat.le_zero.mp hcount)] at hmem
      exact absurd hmem (List.not_mem_nil _)
    exact hin
  | succ n ih =>
    intro res comp tr h1 h2 h3 hcount q hq
    by_cases hall : ∀ p : String × Step, p ∈ stepMapOf plan → p.1 ∈ comp
    · by_cases hc : comp.length < (stepMapOf plan).length
      · have hre : readyOf (stepMapOf plan) comp = [] := by
          rw [readyOf, List.filter_eq_nil]
          intro p hp
          simp only [Bool.and_eq_true, decide_eq_true_eq, not_and]
          intro hp1
          exact absurd (hall p hp) hp1
        have hred : execLoop henv (stepMapOf plan) (n + 1) res comp tr
            = ExecOut.mk res comp tr.reverse := by
          unfold execLoop
          rw [if_pos hc, hre]
        rw [hred]
        exact hall q hq
      · have hred : execLoop henv (stepMapOf plan) (n + 1) res comp tr
            = ExecOut.mk res comp tr.reverse := by
          unfold execLoop
          rw [if_neg hc]
        rw [hred]
        exact hall q hq
    · push_neg at hall
      obtain ⟨q0, hq0, hq0c⟩ := hall
      have hc : comp.length < (stepMapOf plan).length := by
        have hcc : comp.toFinset.card = comp.length :=
          List.toFinset_card_of_nodup h2
        have hkc : (dictKeys (stepMapOf plan)).toFinset.card
            = (dictKeys (stepMapOf plan)).length :=
          List.toFinset_card_of_nodup (stepMapOf_keys_nodup plan)
        have hsub : comp.toFinset ⊆ (dictKeys (stepMapOf plan)).toFinset := by
          intro x hx
          rw [List.mem_toFinset] at hx ⊢
          exact h3 x hx
        have hss : comp.toFinset ⊂ (dictKeys (stepMapOf plan)).toFinset := by
          refine (Finset.ssubset_iff_of_subset hsub).mpr ?_
          refine ⟨q0.1, ?_, ?_⟩
          · rw [List.mem_toFinset]
            exact List.mem_map.mpr ⟨q0, hq0, rfl⟩
          · rw [List.mem_toFinset]
            exact hq0c
        have := Finset.card_lt_card hss
        rw [hcc, hkc] at this
        simpa [dictKeys] using this
      have hne := readyOf_progress plan hdef hacyc comp q0 hq0 hq0c
      cases hr : readyOf (stepMapOf plan) comp with
      | nil => exact absurd hr hne
      | cons p ps =>
        have hspec := roundFold_spec henv (p :: ps) res comp h1
          (fun x hx => hsm x ((readyOf_mem (hr ▸ hx)).1))
          (by
            have := readyOf_keys_sublist (stepMapOf plan) comp
            rw [hr] at this
            exact this.nodup hnd)
          (fun x hx => (readyOf_mem (hr ▸ hx)).2.1)
        have hred : execLoop henv (stepMapOf plan) (n + 1) res comp tr
            = execLoop henv (stepMapOf plan) n
                ((p :: ps).foldl (roundFold henv) (res, comp)).1
                ((p :: ps).foldl (roundFold henv) (res, comp)).2
                (((p :: ps).map Prod.fst) :: tr) := by
          conv_lhs => unfold execLoop
          rw [if_pos hc, hr]
        rw [hred]
        have hnodup : (comp ++ (p :: ps).map Prod.fst).Nodup := by
          refine List.Nodup.append h2 ?_ ?_
          · have := readyOf_keys_sublist (stepMapOf plan) comp
            rw [hr] at this
            exact this.nodup hnd
          · intro x hx hx'
            rcases List.mem_map.mp hx' with ⟨y, hy, rfl⟩
            exact (readyOf_mem (hr ▸ hy)).2.1 hx
        have hsub' : ∀ c ∈ comp ++ (p :: ps).map Prod.fst,
            c ∈ dictKeys (stepMapOf plan) := by
          intro c hcm
          rcases List.mem_append.mp hcm with hcm | hcm
          · exact h3 c hcm
          · rcases List.mem_map.mp hcm with ⟨y, hy, rfl⟩
            exact List.mem_map.mpr ⟨y, (readyOf_mem (hr ▸ hy)).1, rfl⟩
        have hcount' : ((dictKeys (stepMapOf plan)).filter
            (fun x => decide (x ∉ comp ++ (p :: ps).map Prod.fst))).length
              ≤ n := by
          have hlt := filter_not_mem_lt (dictKeys (stepMapOf plan)) comp
            (comp ++ (p :: ps).map Prod.fst)
            (fun x hx => List.mem_append.mpr (Or.inl hx))
            p.1
            (List.mem_map.mpr ⟨p, (readyOf_mem (hr ▸ List.mem_cons_self p ps)).1,
              rfl⟩)
            (readyOf_mem (hr ▸ List.mem_cons_self p ps)).2.1
            (List.mem_append.mpr (Or.inr (List.mem_map.mpr
              ⟨p, List.mem_cons_self p ps, rfl⟩)))
          omega
        have := ih ((p :: ps).foldl (roundFold henv) (res, comp)).1
          ((p :: ps).foldl (roundFold henv) (res, comp)).2
          (((p :: ps).map Prod.fst) :: tr)
          (by rw [hspec.2, hspec.1])
          (by rw [hspec.1]; exact hnodup)
          (by rw [hspec.1]; exact hsub')
          (by rw [hspec.1]; exact hcount')
          q hq
        exact this

/-- C1: for every plan with all dependency ids defined and an acyclic
dependency relation, `_execute_plan_parallel` is causally ordered: the
results dict is written exactly in round order (round N+1 results never
precede a round-N result), a step is dispatched in round r only if every one
of its dependencies was dispatched in an earlier round, every plan step is
eventually dispatched, and for each step there is a prefix of the recorded
results containing each dependency's result but not yet the step's own. -/
theorem dag_causal_ordering (henv : HandlerEnv) (plan : List Step)
    (hdef : ∀ s ∈ plan, ∀ d ∈ depsOf s, d ∈ planIds plan)
    (hacyc : Acyclic (planDepRel plan)) :
    dictKeys (executePlanParallel henv plan).results
        = (executePlanParallel henv plan).rounds.flatten
    ∧ (∀ r ids, (executePlanParallel henv plan).rounds.get? r = Option.some ids →
        ∀ i ∈ ids, ∃ s, alookup (stepMapOf plan) i = Option.some s
          ∧ ∀ d ∈ depsOf s,
              d ∈ ((executePlanParallel henv plan).rounds.take r).flatten)
    ∧ (∀ i, i ∈ planIds plan →
        i ∈ (executePlanParallel henv plan).rounds.flatten)
    ∧ (∀ i s, alookup (stepMapOf plan) i = Option.some s →
        ∀ d ∈ depsOf s, ∃ n,
          (alookup ((executePlanParallel henv plan).results.take n) d).isSome
              = true
          ∧ alookup ((executePlanParallel henv plan).results.take n) i
              = Option.none) := by
  have hsm : ∀ q ∈ stepMapOf plan, q.2.id = Option.some q.1 :=
    fun q hq => (stepMapOf_mem hq).1
  have hnd : ((stepMapOf plan).map Prod.fst).Nodup := stepMapOf_keys_nodup plan
  obtain ⟨rds, hrounds, hcomp, hkeys, hcond⟩ :=
    execLoop_spec henv (stepMapOf plan) hsm hnd (2 * plan.length) [] [] [] rfl
  rw [List.reverse_nil, List.nil_append] at hrounds
  rw [List.nil_append] at hcomp
  rw [List.nil_append] at hkeys
  have hcount : ((dictKeys (stepMapOf plan)).filter
      (fun x => decide (x ∉ ([] : List String)))).length ≤ 2 * plan.length := by
    have hfe : (dictKeys (stepMapOf plan)).filter
        (fun x => decide (x ∉ ([] : List String))) = dictKeys (stepMapOf plan) :=
      List.filter_eq_self.mpr (fun a _ => by simp)
    rw [hfe]
    have h1 : (dictKeys (stepMapOf plan)).length = (stepMapOf plan).length :=
      List.length_map _ _
    have h2 := stepMapOf_length_le plan
    omega
  have hcompl := execLoop_completes henv plan hdef hacyc (2 * plan.length)
    [] [] [] rfl List.nodup_nil (by intro c hc; cases hc) hcount
  have hfill : (stepMapOf plan).foldl
      (fillStep
        (execLoop henv (stepMapOf plan) (2 * plan.length) [] [] []).completed)
      (execLoop henv (stepMapOf plan) (2 * plan.length) [] [] []).results
      = (execLoop henv (stepMapOf plan) (2 * plan.length) [] [] []).results :=
    fill_noop _ _ _ (fun p hp => hcompl p hp)
  have hfix : executePlanParallel henv plan
      = ExecOut.mk
          (execLoop henv (stepMapOf plan) (2 * plan.length) [] [] []).results
          (execLoop henv (stepMapOf plan) (2 * plan.length) [] [] []).completed
          (execLoop henv (stepMapOf plan) (2 * plan.length) [] [] []).rounds := by
    show ExecOut.mk
        ((stepMapOf plan).foldl
          (fillStep
            (execLoop henv (stepMapOf plan)
              (2 * plan.length) [] [] []).completed)
          (execLoop henv (stepMapOf plan) (2 * plan.length) [] [] []).results)
        (execLoop henv (stepMapOf plan) (2 * plan.length) [] [] []).completed
        (execLoop henv (stepMapOf plan) (2 * plan.length) [] [] []).rounds = _
    rw [hfill]
  rw [hfix]
  dsimp only
  refine ⟨?_, ?_, ?_, ?_⟩
  · rw [hkeys, hrounds]
  · intro r ids hr2 i hi
    rw [hrounds] at hr2
    have h5 := hcond r ids hr2
    simp only [List.nil_append] at h5
    rw [h5] at hi
    obtain ⟨p, hpready, hpi⟩ := List.mem_map.mp hi
    obtain ⟨hpsm, _, hpdeps⟩ := readyOf_mem hpready
    refine ⟨p.2, ?_, ?_⟩
    · have hpair : (i, p.2) ∈ stepMapOf plan := by
        rw [← hpi]
        exact hpsm
      exact alookup_of_mem_nodup (stepMapOf_keys_nodup plan) hpair
    · intro d hd
      rw [hrounds]
      exact hpdeps d hd
  · intro i hi
    have hik : i ∈ dictKeys (stepMapOf plan) := planIds_sub_stepMapOf_keys hi
    rcases List.mem_map.mp hik with ⟨q, hq, rfl⟩
    have := hcompl q hq
    rw [hcomp] at this
    rw [hrounds]
    exact this
  · intro i s hlook d hd
    have hpair : (i, s) ∈ stepMapOf plan := alookup_mem hlook
    have hicomp : i ∈ rds.flatten := by
      have := hcompl (i, s) hpair
      rw [hcomp] at this
      exact this
    obtain ⟨l, hl, hil⟩ := List.mem_flatten.mp hicomp
    obtain ⟨k, hk⟩ := List.mem_iff_get?.mp hl
    have h5 := hcond k l hk
    simp only [List.nil_append] at h5
    have hil2 := hil
    rw [h5] at hil2
    obtain ⟨p, hpready, hpi⟩ := List.mem_map.mp hil2
    obtain ⟨hpsm, _, hpdeps⟩ := readyOf_mem hpready
    have hps : p.2 = s := by
      have h6 : alookup (stepMapOf plan) p.1 = Option.some p.2 :=
        alookup_of_mem_nodup (stepMapOf_keys_nodup plan) hpsm
      rw [hpi, hlook] at h6
      injection h6 with h6
      exact h6.symm
    have hdmem : d ∈ (rds.take k).flatten := by
      refine hpdeps d ?_
      rw [hps]
      exact hd
    have hsplit : rds.flatten
        = (rds.take k).flatten ++ (rds.drop k).flatten := by
      conv_lhs => rw [← List.take_append_drop k rds]
      rw [List.flatten_append]
    have htake : dictKeys
        ((execLoop henv (stepMapOf plan)
          (2 * plan.length) [] [] []).results.take ((rds.take k).flatten).length)
        = (rds.take k).flatten := by
      have hmt : dictKeys
          ((execLoop henv (stepMapOf plan)
            (2 * plan.length) [] [] []).results.take
              ((rds.take k).flatten).length)
          = (dictKeys (execLoop henv (stepMapOf plan)
              (2 * plan.length) [] [] []).results).take
                ((rds.take k).flatten).length := by
        simp [dictKeys, List.map_take]
      rw [hmt, hkeys, hsplit]
      exact List.take_left _ _
    refine ⟨((rds.take k).flatten).length, ?_, ?_⟩
    · rw [alookup_isSome_iff, hasKey_iff_mem_dictKeys, htake]
      exact hdmem
    · rw [alookup_eq_none_iff]
      have hnotmem : i ∉ (rds.take k).flatten := by
        have hfnd : rds.flatten.Nodup := by
          have hex := execLoop_keys henv (stepMapOf plan) hsm hnd
            (2 * plan.length) [] [] [] rfl List.nodup_nil
          rw [hcomp] at hex
          exact hex.2
        rw [hsplit] at hfnd
        have hdisj := (List.nodup_append.mp hfnd).2.2
        have hld : l ∈ rds.drop k := by
          refine List.get?_mem (n := 0) ?_
          rw [List.get?_drop]
          simpa using hk
        have hidrop : i ∈ (rds.drop k).flatten :=
          List.mem_flatten.mpr ⟨l, hld, hil⟩
        exact fun hmem' => hdisj hmem' hidrop
      by_contra hb
      have hb2 : hasKey
          ((execLoop henv (stepMapOf plan)
            (2 * plan.length) [] [] []).results.take
              ((rds.take k).flatten).length) i = true := by
        simpa using hb
      exact hnotmem (htake ▸ hasKey_iff_mem_dictKeys.mp hb2)

/-- C1 witness: the two-step plan where `b` depends on `a` satisfies the
validity hypotheses, and its execution records results exactly in round
order. -/
theorem dag_causal_ordering_witness :
    Acyclic (planDepRel c1Plan)
    ∧ dictKeys (executePlanParallel okHandlers c1Plan).results
        = (executePlanParallel okHandlers c1Plan).rounds.flatten := by
  have hdef : ∀ s ∈ c1Plan, ∀ d ∈ depsOf s, d ∈ planIds c1Plan := by decide
  have hacyc : Acyclic (planDepRel c1Plan) := by
    refine acyclic_of_rank _ (fun x => if x = "b" then 1 else 0) ?_
    rintro a b ⟨s, hs, hid, hdep⟩
    simp only [c1Plan, List.mem_cons, List.mem_singleton,
      List.not_mem_nil, or_false] at hs
    rcases hs with rfl | rfl
    · dsimp only at hid hdep
      simp [depsOf] at hdep
    · dsimp only at hid hdep
      injection hid with hid
      subst hid
      simp only [depsOf, Option.getD_some, List.mem_singleton] at hdep
      subst hdep
      decide
  exact ⟨hacyc, (dag_causal_ordering okHandlers c1Plan hdef hacyc).1⟩

end CLIA
